import Mathlib

/-!
Verification of the speech-feedback endpoint (`src/api/feedback.js`).

The development shallowly embeds the three core components of the source file:
the speech-metrics analyzer `analyzeMetrics` (lines 147-197), the ad hoc
multipart decoder `parseMultipartForm` (lines 95-144), and the two response
branches of the request `handler` (lines 199-412).  JavaScript numbers are
modelled as exact rationals extended with the special values `NaN` and the two
infinities; numeric literals of the source (`0.2`, `0.3`, `0.1`) are read as
the rationals they denote.  JavaScript `undefined` is modelled by `Option`,
and a thrown exception by `Option.none` / `Except.error` at the function's
result type.

So that every definition evaluates inside the kernel (`decide`/`rfl` on
concrete inputs), rational arithmetic is expressed through `Rat.divInt` and
`mkRat` rather than the `@[irreducible]` field operations of `ℚ`; the bridge
lemmas `qadd_eq`, `qsub_eq`, `qmul_eq`, `qdiv_eq`, `floorQ_eq` and
`jsRoundQ_eq` identify these with the ordinary `+ - * / ⌊⌋ round`.
-/

/-- Kernel-reducible addition on `ℚ` (definitionally `Rat.divInt`, provably `+`). -/
def qadd (a b : ℚ) : ℚ := Rat.divInt (a.num * (b.den : ℤ) + b.num * (a.den : ℤ)) ((a.den : ℤ) * (b.den : ℤ))

/-- Kernel-reducible subtraction on `ℚ`. -/
def qsub (a b : ℚ) : ℚ := Rat.divInt (a.num * (b.den : ℤ) - b.num * (a.den : ℤ)) ((a.den : ℤ) * (b.den : ℤ))

/-- Kernel-reducible multiplication on `ℚ`. -/
def qmul (a b : ℚ) : ℚ := Rat.divInt (a.num * b.num) ((a.den : ℤ) * (b.den : ℤ))

/-- Kernel-reducible division on `ℚ` (division by zero yields zero, as in `ℚ`). -/
def qdiv (a b : ℚ) : ℚ := Rat.divInt (a.num * (b.den : ℤ)) ((a.den : ℤ) * b.num)

/-- Kernel-reducible floor of a rational. -/
def floorQ (q : ℚ) : ℤ := q.num / (q.den : ℤ)

/-- `Math.round`: round half towards positive infinity, `⌊q + 1/2⌋`. -/
def jsRoundQ (q : ℚ) : ℤ := floorQ (qadd q (mkRat 1 2))

/-- A JavaScript number: an exact rational, `NaN`, `Infinity` or `-Infinity`.
(IEEE-754 rounding of in-range arithmetic is idealised away: the source only
adds, subtracts, divides and compares values for which the exact rational is
the intended reading.  JavaScript's negative zero is identified with zero.) -/
inductive JsNum where
  | num (q : ℚ)
  | nan
  | inf
  | negInf
deriving DecidableEq

/-- Coercion of a possibly-`undefined` number into arithmetic: in JavaScript,
`undefined` used in arithmetic becomes `NaN`. -/
def toJs (o : Option ℚ) : JsNum :=
  match o with
  | some q => JsNum.num q
  | none => JsNum.nan

/-- JavaScript subtraction `a - b` on the extended number model. -/
def jsSub : JsNum → JsNum → JsNum
  | JsNum.num a, JsNum.num b => JsNum.num (qsub a b)
  | JsNum.inf, JsNum.num _ => JsNum.inf
  | JsNum.negInf, JsNum.num _ => JsNum.negInf
  | JsNum.num _, JsNum.inf => JsNum.negInf
  | JsNum.num _, JsNum.negInf => JsNum.inf
  | JsNum.inf, JsNum.negInf => JsNum.inf
  | JsNum.negInf, JsNum.inf => JsNum.negInf
  | JsNum.inf, JsNum.inf => JsNum.nan
  | JsNum.negInf, JsNum.negInf => JsNum.nan
  | JsNum.nan, _ => JsNum.nan
  | _, JsNum.nan => JsNum.nan

/-- JavaScript division `a / b`: a positive number divided by zero is
`Infinity`, a negative one `-Infinity`, `0 / 0` is `NaN`. -/
def jsDiv : JsNum → JsNum → JsNum
  | JsNum.num a, JsNum.num b =>
      if b = 0 then
        (if a = 0 then JsNum.nan else if 0 < a then JsNum.inf else JsNum.negInf)
      else JsNum.num (qdiv a b)
  | JsNum.num _, JsNum.inf => JsNum.num 0
  | JsNum.num _, JsNum.negInf => JsNum.num 0
  | JsNum.inf, JsNum.num b => if 0 ≤ b then JsNum.inf else JsNum.negInf
  | JsNum.negInf, JsNum.num b => if 0 ≤ b then JsNum.negInf else JsNum.inf
  | JsNum.inf, JsNum.inf => JsNum.nan
  | JsNum.inf, JsNum.negInf => JsNum.nan
  | JsNum.negInf, JsNum.inf => JsNum.nan
  | JsNum.negInf, JsNum.negInf => JsNum.nan
  | JsNum.nan, _ => JsNum.nan
  | _, JsNum.nan => JsNum.nan

/-- JavaScript multiplication `a * b` on the extended number model. -/
def jsMul : JsNum → JsNum → JsNum
  | JsNum.num a, JsNum.num b => JsNum.num (qmul a b)
  | JsNum.inf, JsNum.num b => if 0 < b then JsNum.inf else if b < 0 then JsNum.negInf else JsNum.nan
  | JsNum.num b, JsNum.inf => if 0 < b then JsNum.inf else if b < 0 then JsNum.negInf else JsNum.nan
  | JsNum.negInf, JsNum.num b => if 0 < b then JsNum.negInf else if b < 0 then JsNum.inf else JsNum.nan
  | JsNum.num b, JsNum.negInf => if 0 < b then JsNum.negInf else if b < 0 then JsNum.inf else JsNum.nan
  | JsNum.inf, JsNum.inf => JsNum.inf
  | JsNum.negInf, JsNum.negInf => JsNum.inf
  | JsNum.inf, JsNum.negInf => JsNum.negInf
  | JsNum.negInf, JsNum.inf => JsNum.negInf
  | JsNum.nan, _ => JsNum.nan
  | _, JsNum.nan => JsNum.nan

/-- `Math.round` on the extended number model; special values are returned
unchanged. -/
def jsRound : JsNum → JsNum
  | JsNum.num q => JsNum.num ((jsRoundQ q : ℤ) : ℚ)
  | JsNum.nan => JsNum.nan
  | JsNum.inf => JsNum.inf
  | JsNum.negInf => JsNum.negInf

/-- The JavaScript comparison `a > q` against a plain number: `NaN` compares
false, `Infinity > q` is true, `-Infinity > q` is false. -/
def JsNum.gtQ : JsNum → ℚ → Bool
  | JsNum.num x, q => decide (q < x)
  | JsNum.inf, _ => true
  | JsNum.nan, _ => false
  | JsNum.negInf, _ => false

/-- `String.prototype.toLowerCase`, modelled per character by ASCII
`Char.toLower` (the filler-word list it is compared against is pure ASCII). -/
def jsLower (s : String) : String := ⟨s.data.map Char.toLower⟩

/-- List form of `String.prototype.trim`: drop whitespace from both ends. -/
def trimChars (cs : List Char) : List Char :=
  ((cs.dropWhile Char.isWhitespace).reverse.dropWhile Char.isWhitespace).reverse

/-- `String.prototype.trim`, modelled with ASCII whitespace. -/
def jsTrim (s : String) : String := ⟨trimChars s.data⟩

/-- One element of the Whisper word-timestamp array.  `word` is the token text
(absent models a malformed entry whose `.word` is `undefined`); `start` and
`end` are the per-word timestamps in seconds, absent when the timing data is
malformed. -/
structure Word where
  word : Option String
  start : Option ℚ
  «end» : Option ℚ
deriving DecidableEq

/-- The fixed filler-word list of `analyzeMetrics` (line 158). -/
def fillerWords : List String := ["um", "uh", "like", "you know", "so", "basically", "actually", "literally"]

/-- The filler-counting `forEach` loop (lines 163-168):
`word.word.toLowerCase().trim()` throws a `TypeError` when `word.word` is
`undefined`, which `none` records. -/
def fillerCountOf : List Word → Option ℕ
  | [] => some 0
  | w :: rest =>
      match w.word with
      | none => none
      | some t =>
          (fillerCountOf rest).map
            (fun c => (if fillerWords.contains (jsTrim (jsLower t)) then 1 else 0) + c)

/-- The pause-extraction loop (lines 170-176): for `i = 1, …`, compute
`words[i].start - words[i-1].end` and push it when it exceeds `0.2`; a missing
timestamp makes the subtraction `NaN`, and `NaN > 0.2` is false, so nothing is
pushed. -/
def pausesOf : List Word → List ℚ
  | [] => []
  | a :: rest =>
      match rest with
      | [] => []
      | b :: _ =>
          (match jsSub (toJs b.start) (toJs a.«end») with
           | JsNum.num q => if mkRat 1 5 < q then [q] else []
           | _ => []) ++ pausesOf rest

/-- `Math.max(...pauses)` for a non-empty list (the `[]` value is unreachable
behind the `pauses.length > 0` guard of line 192). -/
def foldMax : List ℚ → ℚ
  | [] => 0
  | x :: rest =>
      match rest with
      | [] => x
      | _ :: _ => max x (foldMax rest)

/-- `Number.prototype.toFixed(2)`, modelled by its numeric value: rounding to
two decimal places.  (JavaScript returns the decimal string; only nonnegative
values reach this call, for which round-half-up agrees with JavaScript's
round-half-away-from-zero.) -/
def toFixed2 (q : ℚ) : ℚ := Rat.divInt (jsRoundQ (qmul q 100)) 100

/-- The pacing classification (lines 181-187), first match wins. -/
def pacingOf (pauseCount wordCount : ℕ) (wpm : JsNum) : String :=
  if qmul (wordCount : ℚ) (mkRat 3 10) < (pauseCount : ℚ) then "halting"
  else if (pauseCount : ℚ) < qmul (wordCount : ℚ) (mkRat 1 10) ∧ wpm.gtQ 150 = true then "rushed"
  else "steady"

/-- The object returned by `analyzeMetrics`.  `pauseCount` is `Option` because
the empty-sequence return object (lines 149-155) has no `pauseCount` property
(it reads as `undefined`), while the main return (lines 189-196) always sets
it. -/
structure Metrics where
  wordsPerMinute : JsNum
  averagePauseDuration : ℚ
  longestPause : ℚ
  fillerWordCount : ℕ
  pauseCount : Option ℕ
  pacingVariation : String
deriving DecidableEq

/-- The canonical value returned for an absent or empty word sequence
(lines 149-155); note the missing `pauseCount`. -/
def emptyMetrics : Metrics :=
  { wordsPerMinute := JsNum.num 0
    averagePauseDuration := 0
    longestPause := 0
    fillerWordCount := 0
    pauseCount := none
    pacingVariation := "unknown" }

/-- `analyzeMetrics(words, duration)` (lines 147-197).  The result is `none`
exactly when the JavaScript function throws (a word with `undefined` text). -/
def analyzeMetrics (words : Option (List Word)) (duration : JsNum) : Option Metrics :=
  match words with
  | none => some emptyMetrics
  | some ws =>
      if ws.length = 0 then some emptyMetrics
      else
        match fillerCountOf ws with
        | none => none
        | some fillerCount =>
            let pauses := pausesOf ws
            let wordsPerMinute :=
              jsRound (jsMul (jsDiv (JsNum.num (ws.length : ℚ)) duration) (JsNum.num 60))
            some
              { wordsPerMinute := wordsPerMinute
                averagePauseDuration :=
                  if 0 < pauses.length then toFixed2 (qdiv (pauses.foldl qadd 0) (pauses.length : ℚ)) else 0
                longestPause :=
                  if 0 < pauses.length then toFixed2 (foldMax pauses) else 0
                fillerWordCount := fillerCount
                pauseCount := some pauses.length
                pacingVariation := pacingOf pauses.length ws.length wordsPerMinute }

/-- Kernel-reducible negation on `ℚ`. -/
def qneg (q : ℚ) : ℚ := Rat.divInt (-q.num) (q.den : ℤ)

/-- `10 ^ n` as a rational. -/
def pow10 (n : ℕ) : ℚ := mkRat ((10 : ℕ) ^ n : ℕ) 1

/-- Scale a rational by `10 ^ e` for an integer exponent `e`. -/
def applyExp (q : ℚ) (e : ℤ) : ℚ :=
  if 0 ≤ e then qmul q (pow10 e.toNat) else qdiv q (pow10 (-e).toNat)

/-- Read a digit string as a natural number. -/
def digitsToNat (ds : List Char) : ℕ := ds.foldl (fun a c => 10 * a + (c.toNat - '0'.toNat)) 0

/-- The optional exponent part of a `parseFloat` literal: `e`/`E`, an optional
sign and at least one digit; anything else contributes exponent `0` (JavaScript
`parseFloat("1e")` is `1`). -/
def expOf (cs : List Char) : ℤ :=
  match cs with
  | [] => 0
  | c :: t =>
      if c = 'e' ∨ c = 'E' then
        (match t with
         | '+' :: t2 =>
             if (t2.takeWhile Char.isDigit).isEmpty then 0 else (digitsToNat (t2.takeWhile Char.isDigit) : ℤ)
         | '-' :: t2 =>
             if (t2.takeWhile Char.isDigit).isEmpty then 0 else -(digitsToNat (t2.takeWhile Char.isDigit) : ℤ)
         | t2 =>
             if (t2.takeWhile Char.isDigit).isEmpty then 0 else (digitsToNat (t2.takeWhile Char.isDigit) : ℤ))
      else 0

/-- The unsigned decimal part of `parseFloat`: longest prefix
`digits [ '.' digits ] [ exponent ]`; `none` when there is no digit at all
(the `NaN` case). -/
def parseFloatCore (cs : List Char) : Option ℚ :=
  let intDs := cs.takeWhile Char.isDigit
  let rest1 := cs.dropWhile Char.isDigit
  let fracDs :=
    match rest1 with
    | '.' :: t => t.takeWhile Char.isDigit
    | _ => []
  let rest2 :=
    match rest1 with
    | '.' :: t => t.dropWhile Char.isDigit
    | _ => rest1
  if intDs.isEmpty ∧ fracDs.isEmpty then none
  else
    some (applyExp (qadd (mkRat (digitsToNat intDs) 1) (qdiv (mkRat (digitsToNat fracDs) 1) (pow10 fracDs.length)))
           (expOf rest2))

/-- `parseFloat` after the optional sign: an `Infinity` literal or a decimal
literal; otherwise `NaN`. -/
def parseFloatAbs (neg : Bool) (cs : List Char) : JsNum :=
  if cs.take 8 = "Infinity".data then (if neg then JsNum.negInf else JsNum.inf)
  else
    match parseFloatCore cs with
    | some q => JsNum.num (if neg then qneg q else q)
    | none => JsNum.nan

/-- JavaScript `parseFloat`: skip leading whitespace, read an optional sign,
then the longest valid float prefix; `NaN` when none exists.  (Negative zero
is identified with zero.) -/
def parseFloat (s : String) : JsNum :=
  match s.data.dropWhile Char.isWhitespace with
  | '+' :: t => parseFloatAbs false t
  | '-' :: t => parseFloatAbs true t
  | t => parseFloatAbs false t

/-- Line 240 of the audio branch:
`const duration = fields.duration ? parseFloat(fields.duration) : transcription.duration || 0;`
The form field (a string) is truthy exactly when it is nonempty; the
collaborator-reported duration (a number or `undefined`) is truthy when it is
present and nonzero. -/
def selectDuration (durationField : Option String) (transcriptionDuration : Option ℚ) : JsNum :=
  match durationField with
  | some s =>
      if s = "" then
        (match transcriptionDuration with
         | some d => if d = 0 then JsNum.num 0 else JsNum.num d
         | none => JsNum.num 0)
      else parseFloat s
  | none =>
      (match transcriptionDuration with
       | some d => if d = 0 then JsNum.num 0 else JsNum.num d
       | none => JsNum.num 0)

/-- A JSON document, as produced by `JSON.parse`. -/
inductive Json where
  | null
  | bool (b : Bool)
  | num (q : ℚ)
  | str (s : String)
  | arr (elems : List Json)
  | obj (members : List (String × Json))

/-- What the transcription collaborator returns
(`{text, words?, duration?}`). -/
structure TranscriptionResult where
  text : String
  words : Option (List Word)
  duration : Option ℚ

/-- An uploaded file as decoded from the multipart body. -/
structure AudioFile where
  filename : String
  data : List ℕ

/-- The named fields of the decoded form that the audio branch reads. -/
structure ParsedForm where
  audio : Option AudioFile
  duration : Option String
  question : Option String
  part : Option String

/-- The body of a text-only (JSON) request: `{ text, question?, part? }`. -/
structure TextRequestBody where
  text : Option String
  question : Option String
  part : Option String

/-- JavaScript `a || b` for an optional string `a`: the empty string is falsy. -/
def jsOrString (v : Option String) (dflt : String) : String :=
  match v with
  | some s => if s = "" then dflt else s
  | none => dflt

/-- The literal `'{}'` substituted for an absent or blank completion. -/
def jsonEmptyText : String := "\x7b\x7d"

/-- Lines 292 / 353: `completion.choices?.[0]?.message?.content?.trim() || '{}'`. -/
def responseContentOf (completionContent : Option String) : String :=
  match completionContent with
  | some c => if jsTrim c = "" then jsonEmptyText else jsTrim c
  | none => jsonEmptyText

/-- The fixed fallback document substituted when `JSON.parse` throws
(lines 300-312 and 360-372). -/
def fallbackIelts : Json :=
  Json.obj
    [("overallBand", Json.num 0),
     ("scores",
      Json.obj
        [("fluencyCoherence", Json.num 0),
         ("lexicalResource", Json.num 0),
         ("grammaticalRange", Json.num 0),
         ("pronunciation", Json.num 0)]),
     ("feedback",
      Json.obj
        [("summary", Json.str "Unable to analyze response. Please try again."),
         ("error", Json.bool true)])]

/-- The `try { JSON.parse } catch { fallback }` of both branches, with
`JSON.parse` as an oracle parameter (`none` models a thrown `SyntaxError`). -/
def ieltsResultOf (parse : String → Option Json) (completionContent : Option String) : Json :=
  match parse (responseContentOf completionContent) with
  | some j => j
  | none => fallbackIelts

/-- The 200-response body `{ieltsScores, transcript, metrics?, question, part}`;
`metrics` is present only on the audio branch. -/
structure OkBody where
  ieltsScores : Json
  transcript : String
  metrics : Option Metrics
  question : String
  part : String

/-- A response sent by the handler: a JSON document with a status, or an
error document `{error: …}` with a status. -/
inductive ApiResponse where
  | json (status : ℕ) (body : OkBody)
  | jsonError (status : ℕ) (message : String)

/-- The audio branch of the handler (lines 220-321), entered with the decoded
form, the transcription collaborator's result and the generation
collaborator's message content.  `Except.error ()` models an exception
escaping to the outer `catch` (which happens exactly when `analyzeMetrics`
throws). -/
def handlerAudioBranch (parse : String → Option Json) (form : ParsedForm)
    (tr : TranscriptionResult) (completionContent : Option String) : Except Unit ApiResponse :=
  match form.audio with
  | none => Except.ok (ApiResponse.jsonError 400 "No audio file provided")
  | some _ =>
      match analyzeMetrics (some (tr.words.getD [])) (selectDuration form.duration tr.duration) with
      | none => Except.error ()
      | some metrics =>
          Except.ok (ApiResponse.json 200
            { ieltsScores := ieltsResultOf parse completionContent
              transcript := tr.text
              metrics := some metrics
              question := jsOrString form.question "IELTS Speaking Question"
              part := jsOrString form.part "1" })

/-- The text-only branch of the handler (lines 323-380): validate the
transcript, then respond 200 with the parsed (or fallback) scores and no
metrics.  (`typeof text !== 'string'` is subsumed: the model types `text` as
an optional string.) -/
def handlerTextBranch (parse : String → Option Json) (body : Option TextRequestBody)
    (completionContent : Option String) : ApiResponse :=
  let b := body.getD ⟨none, none, none⟩
  match b.text with
  | none => ApiResponse.jsonError 400 "Missing transcript text or audio file"
  | some t =>
      if jsTrim t = "" then ApiResponse.jsonError 400 "Missing transcript text or audio file"
      else
        ApiResponse.json 200
          { ieltsScores := ieltsResultOf parse completionContent
            transcript := jsTrim t
            metrics := none
            question := jsOrString b.question "General IELTS Question"
            part := jsOrString b.part "1" }

/-- `pat` is an initial segment of `s`. -/
def takePre (pat s : List Char) : Prop := s.take pat.length = pat

instance (pat s : List Char) : Decidable (takePre pat s) :=
  inferInstanceAs (Decidable (_ = _))

/-- `String.prototype.indexOf`: position of the first occurrence of `pat` in
`s`, `none` standing for JavaScript's `-1`. -/
def jsIndexOf (s pat : List Char) : Option ℕ :=
  match s with
  | [] => if pat = [] then some 0 else none
  | c :: rest => if takePre pat (c :: rest) then some 0 else (jsIndexOf rest pat).map (· + 1)

/-- `String.prototype.indexOf` with JavaScript's `-1` convention. -/
def jsIndexOfZ (s pat : List Char) : ℤ :=
  match jsIndexOf s pat with
  | some k => (k : ℤ)
  | none => -1

/-- Helper for `jsLastIndexOf`: scan the string keeping the last match. -/
def lastIdxAux (pat : List Char) : List Char → ℕ → Option ℕ → Option ℕ
  | [], i, best => if pat = [] then some i else best
  | c :: rest, i, best => lastIdxAux pat rest (i + 1) (if takePre pat (c :: rest) then some i else best)

/-- `String.prototype.lastIndexOf` with JavaScript's `-1` convention. -/
def jsLastIndexOfZ (s pat : List Char) : ℤ :=
  match lastIdxAux pat s 0 none with
  | some k => (k : ℤ)
  | none => -1

/-- `String.prototype.substring`: clamp both indices into `[0, length]`, swap
them if necessary, and return the slice. -/
def jsSubstring (s : List Char) (a b : ℤ) : List Char :=
  let n : ℤ := (s.length : ℤ)
  let x := (min (max a 0) n).toNat
  let y := (min (max b 0) n).toNat
  if x ≤ y then (s.drop x).take (y - x) else (s.drop y).take (x - y)

/-- Fuel-driven body of `jsSplit` (the fuel only serves structural
termination; `s.length` is always enough because each step consumes at least
one character). -/
def jsSplitAux (sep : List Char) : ℕ → List Char → List (List Char)
  | 0, s => [s]
  | Nat.succ fuel, s =>
      match jsIndexOf s sep with
      | none => [s]
      | some k => s.take k :: jsSplitAux sep fuel (s.drop (k + sep.length))

/-- `String.prototype.split` on a nonempty separator string.  (The source only
splits on `'--' + boundary` and on `'boundary='`, both nonempty; the `[s]`
value for an empty separator is a harmless totalisation.) -/
def jsSplit (s sep : List Char) : List (List Char) :=
  if sep = [] then [s] else jsSplitAux sep s.length s

/-- `'Content-Disposition'`. -/
def cdLit : List Char := "Content-Disposition".data

/-- The literal prefix matched by `/name="([^"]+)"/`. -/
def nameLit : List Char := "name=\"".data

/-- The literal prefix matched by `/filename="([^"]+)"/`. -/
def fnLit : List Char := "filename=\"".data

/-- A carriage-return/line-feed pair. -/
def crlf : List Char := ['\r', '\n']

/-- Try the pattern `lit ++ [^"]+ ++ '"'` at the start of `s`; on success
return the captured run. -/
def matchParamAt (lit s : List Char) : Option (List Char) :=
  if takePre lit s then
    if (s.drop lit.length).takeWhile (fun c => c != '"') ≠ [] ∧
        ((s.drop lit.length).drop
            ((s.drop lit.length).takeWhile (fun c => c != '"')).length).take 1 = ['"'] then
      some ((s.drop lit.length).takeWhile (fun c => c != '"'))
    else none
  else none

/-- First match of `lit ++ [^"]+ ++ '"'` anywhere in `s`: the semantics of
`s.match(/lit"([^"]+)"/)` for the two disposition-parameter patterns. -/
def findParam (lit : List Char) : List Char → Option (List Char)
  | [] => none
  | c :: rest =>
      match matchParamAt lit (c :: rest) with
      | some r => some r
      | none => findParam lit rest

/-- A decoded file part: the declared filename and the content bytes
(`Buffer.from(content, 'binary')`). -/
structure FilePart where
  filename : List Char
  data : List ℕ
deriving DecidableEq

/-- The result object of `parseMultipartForm`: `{fields: {...}, files: {...}}`,
with JavaScript objects as insertion-ordered key-value lists. -/
structure MultipartResult where
  fields : List (List Char × List Char)
  files : List (List Char × FilePart)
deriving DecidableEq

/-- JavaScript object property assignment `m[k] = v`: replace an existing key
in place, otherwise append. -/
def setKey {α : Type} (m : List (List Char × α)) (k : List Char) (v : α) : List (List Char × α) :=
  if m.any (fun p => p.1 == k) then m.map (fun p => if p.1 == k then (k, v) else p)
  else m ++ [(k, v)]

/-- The per-part body of the decoder loop (lines 111-135). -/
def processPart (acc : MultipartResult) (part : List Char) : MultipartResult :=
  if (jsIndexOf part cdLit).isSome then
    match findParam nameLit part with
    | none => acc
    | some n =>
        match findParam fnLit part with
        | some fn =>
            { acc with
                files :=
                  setKey acc.files n (FilePart.mk fn
                    ((jsSubstring part (jsIndexOfZ part (crlf ++ crlf) + 4)
                      (jsLastIndexOfZ part crlf)).map Char.toNat)) }
        | none =>
            { acc with
                fields :=
                  setKey acc.fields n
                    (jsSubstring part (jsIndexOfZ part (crlf ++ crlf) + 4)
                      (jsLastIndexOfZ part crlf)) }
  else acc

/-- `parseMultipartForm` (lines 95-144).  The request body is a byte list;
`buffer.toString('binary')` is the byte-to-latin-1-character bijection
`Char.ofNat`.  `Except.error ()` is the promise rejection (no/empty boundary
parameter on the content-type header, which is `none` when absent). -/
def parseMultipartForm (contentTypeHeader : Option (List Char)) (body : List ℕ) :
    Except Unit MultipartResult :=
  match contentTypeHeader with
  | none => Except.error ()
  | some ct =>
      match (jsSplit ct "boundary=".data).get? 1 with
      | none => Except.error ()
      | some boundary =>
          if boundary = [] then Except.error ()
          else
            Except.ok ((jsSplit (body.map Char.ofNat)
              ("--".data ++ boundary)).foldl processPart ⟨[], []⟩)

/-- Modelled from the spec (§4.1, §6): the standard `multipart/form-data` wire
format a browser client sends — the repository contains only the decoder, so
the encoder side of the round-trip claim is taken from the spec's description
of the format (boundary-delimited parts, a `Content-Disposition` header
naming the part, a blank-line separator, the content, and a final
`--boundary--` terminator).  Body of one ordinary field part, as it appears
between two boundary markers. -/
def fieldPartBody (n v : List Char) : List Char :=
  "\r\nContent-Disposition: form-data; ".data ++
    (nameLit ++ (n ++ ("\"\r\n\r\n".data ++ (v ++ crlf))))

/-- Modelled from the spec (§4.1, §6): body of the file part, as it appears
between two boundary markers. -/
def filePartBody (n fn c : List Char) : List Char :=
  "\r\nContent-Disposition: form-data; ".data ++
    (nameLit ++ (n ++ ("\"; ".data ++ (fnLit ++ (fn ++ ("\"\r\n\r\n".data ++ (c ++ crlf)))))))

/-- Chain the part bodies with `--boundary` markers and the final
`--boundary--` terminator. -/
def encodeParts (sep : List Char) : List (List Char) → List Char
  | [] => sep ++ "--".data ++ crlf
  | p :: ps => sep ++ p ++ encodeParts sep ps

/-- Modelled from the spec (§4.1, §6): encode a field map and one file
attachment as a `multipart/form-data` body (a byte list; characters are
latin-1 bytes). -/
def encodeMultipart (boundary : List Char) (fields : List (List Char × List Char))
    (fileN fileFn : List Char) (fileBytes : List ℕ) : List ℕ :=
  (encodeParts ("--".data ++ boundary)
      (fields.map (fun p => fieldPartBody p.1 p.2) ++
        [filePartBody fileN fileFn (fileBytes.map Char.ofNat)])).map Char.toNat

/-- Modelled from the spec (§6): the content-type header of a multipart
request, carrying the boundary parameter. -/
def multipartHeader (boundary : List Char) : List Char :=
  "multipart/form-data; boundary=".data ++ boundary

/-- Decidable equality of `Except` results (used to evaluate the decoder on
concrete inputs). -/
instance {ε α : Type} [DecidableEq ε] [DecidableEq α] : DecidableEq (Except ε α) := fun a b =>
  match a, b with
  | Except.ok x, Except.ok y =>
      if h : x = y then Decidable.isTrue (by rw [h]) else Decidable.isFalse (by simp [h])
  | Except.error x, Except.error y =>
      if h : x = y then Decidable.isTrue (by rw [h]) else Decidable.isFalse (by simp [h])
  | Except.ok _, Except.error _ => Decidable.isFalse (by simp)
  | Except.error _, Except.ok _ => Decidable.isFalse (by simp)

/-- The claim's view of pause extraction: the list of adjacent-pair gaps
`w[i].startSeconds - w[i-1].endSeconds` (for words carrying timestamps). -/
def adjacentGaps : List Word → List ℚ
  | [] => []
  | a :: rest =>
      match rest with
      | [] => []
      | b :: _ => (b.start.getD 0 - a.«end».getD 0) :: adjacentGaps rest

/-! ## Bridge lemmas: the kernel-reducible arithmetic is the ordinary one -/

theorem qadd_eq (a b : ℚ) : qadd a b = a + b := by
  rw [qadd, Rat.divInt_eq_div]
  have ha : ((a.den : ℤ) : ℚ) ≠ 0 := by exact_mod_cast a.den_nz
  have hb : ((b.den : ℤ) : ℚ) ≠ 0 := by exact_mod_cast b.den_nz
  push_cast at ha hb ⊢
  conv_rhs => rw [← Rat.num_div_den a, ← Rat.num_div_den b]
  field_simp
  try ring

theorem qsub_eq (a b : ℚ) : qsub a b = a - b := by
  rw [qsub, Rat.divInt_eq_div]
  have ha : ((a.den : ℤ) : ℚ) ≠ 0 := by exact_mod_cast a.den_nz
  have hb : ((b.den : ℤ) : ℚ) ≠ 0 := by exact_mod_cast b.den_nz
  push_cast at ha hb ⊢
  conv_rhs => rw [← Rat.num_div_den a, ← Rat.num_div_den b]
  field_simp
  try ring

theorem qmul_eq (a b : ℚ) : qmul a b = a * b := by
  rw [qmul, Rat.divInt_eq_div]
  have ha : ((a.den : ℤ) : ℚ) ≠ 0 := by exact_mod_cast a.den_nz
  have hb : ((b.den : ℤ) : ℚ) ≠ 0 := by exact_mod_cast b.den_nz
  push_cast at ha hb ⊢
  conv_rhs => rw [← Rat.num_div_den a, ← Rat.num_div_den b]
  field_simp
  try ring

theorem qdiv_eq (a b : ℚ) : qdiv a b = a / b := by
  rw [qdiv, Rat.divInt_eq_div]
  have ha : ((a.den : ℤ) : ℚ) ≠ 0 := by exact_mod_cast a.den_nz
  have hb : ((b.den : ℤ) : ℚ) ≠ 0 := by exact_mod_cast b.den_nz
  push_cast at ha hb ⊢
  rcases eq_or_ne b 0 with hb0 | hb0
  · subst hb0; simp
  · have hbn : ((b.num : ℤ) : ℚ) ≠ 0 := by
      exact_mod_cast Rat.num_ne_zero.mpr hb0
    push_cast at hbn
    conv_rhs => rw [← Rat.num_div_den a, ← Rat.num_div_den b]
    field_simp
    try ring

theorem qneg_eq (q : ℚ) : qneg q = -q := by
  rw [qneg, Rat.divInt_eq_div]
  have hq : ((q.den : ℤ) : ℚ) ≠ 0 := by exact_mod_cast q.den_nz
  push_cast at hq ⊢
  conv_rhs => rw [← Rat.num_div_den q]
  field_simp
  try ring

theorem mkRat_q (n : ℤ) (d : ℕ) : mkRat n d = (n : ℚ) / (d : ℚ) := by
  rw [Rat.mkRat_eq_divInt, Rat.divInt_eq_div]
  norm_num

theorem floorQ_eq (q : ℚ) : floorQ q = ⌊q⌋ := by
  rw [floorQ, ← Rat.floor_intCast_div_natCast q.num q.den, Rat.num_div_den]

theorem jsRoundQ_eq (q : ℚ) : jsRoundQ q = round q := by
  rw [jsRoundQ, floorQ_eq, qadd_eq, round_eq, mkRat_q]
  norm_num

theorem toFixed2_eq (q : ℚ) : toFixed2 q = ((round (q * 100) : ℤ) : ℚ) / 100 := by
  rw [toFixed2, Rat.divInt_eq_div, jsRoundQ_eq, qmul_eq]
  norm_num

/-! ## Helper lemmas about the metrics analyzer -/

theorem fillerCountOf_isSome (ws : List Word) (h : ∀ w ∈ ws, w.word.isSome) :
    ∃ c, fillerCountOf ws = some c := by
  induction ws with
  | nil => exact ⟨0, rfl⟩
  | cons w rest ih =>
      obtain ⟨t, ht⟩ := Option.isSome_iff_exists.mp (h w (List.mem_cons_self w rest))
      obtain ⟨c, hc⟩ := ih (fun x hx => h x (List.mem_cons_of_mem w hx))
      refine ⟨(if fillerWords.contains (jsTrim (jsLower t)) then 1 else 0) + c, ?_⟩
      simp [fillerCountOf, ht, hc]

/-- Claim C1 is false on the code: for the concrete one-word sequence with
duration 0, `analyzeMetrics` returns `wordsPerMinute = Infinity`
(`Math.round(1 / 0 * 60)`), which is not `0`. -/
theorem c1_counterexample :
    (analyzeMetrics (some [⟨some "a", some 0, some 1⟩]) (JsNum.num 0)).map Metrics.wordsPerMinute
        = some JsNum.inf ∧
      JsNum.inf ≠ JsNum.num 0 := by
  decide

/-- Claim C1 (amended): with duration 0, the division does not fault: for the
empty sequence `wordsPerMinute` is `0`, and for every non-empty word sequence
(whose entries carry text) `wordsPerMinute` is `Infinity`, not `0`. -/
theorem c1_amended (words : List Word) (hw : ∀ w ∈ words, w.word.isSome) :
    (analyzeMetrics (some []) (JsNum.num 0)).map Metrics.wordsPerMinute = some (JsNum.num 0) ∧
    (words ≠ [] →
      (analyzeMetrics (some words) (JsNum.num 0)).map Metrics.wordsPerMinute = some JsNum.inf) := by
  refine ⟨rfl, fun hne => ?_⟩
  obtain ⟨c, hc⟩ := fillerCountOf_isSome words hw
  have hlen : words.length ≠ 0 := by simpa using hne
  have hdiv : jsDiv (JsNum.num (words.length : ℚ)) (JsNum.num 0) = JsNum.inf := by
    have h1 : ((words.length : ℚ)) ≠ 0 := Nat.cast_ne_zero.mpr hlen
    have h2 : (0 : ℚ) < (words.length : ℚ) := by positivity
    simp [jsDiv, h1, h2]
  have hmul : jsMul JsNum.inf (JsNum.num 60) = JsNum.inf := by norm_num [jsMul]
  simp [analyzeMetrics, hlen, hc, hdiv, hmul, jsRound]

/-- Witness for C1 (amended) at a concrete input. -/
theorem c1_witness :
    (analyzeMetrics (some [⟨some "a", some 0, some 1⟩]) (JsNum.num 0)).map Metrics.wordsPerMinute
      = some JsNum.inf :=
  (c1_amended [⟨some "a", some 0, some 1⟩] (by decide)).2 (by decide)

/-- Claim C2: the empty (or absent) word sequence yields the canonical
zero/unknown value — but the returned object carries no `pauseCount` property
at all (`undefined`), contradicting the claim that `pauseCount` is present and
zero; the remaining fields are as claimed.  (The code's own prompt template
reads `metrics.pauseCount` unconditionally, so the missing property is a slip
in the empty-sequence branch.) -/
theorem c2_empty_metrics (d : JsNum) :
    analyzeMetrics (some []) d = some emptyMetrics ∧
    analyzeMetrics none d = some emptyMetrics ∧
    emptyMetrics.pauseCount = none ∧
    emptyMetrics.wordsPerMinute = JsNum.num 0 ∧
    emptyMetrics.averagePauseDuration = 0 ∧
    emptyMetrics.longestPause = 0 ∧
    emptyMetrics.fillerWordCount = 0 ∧
    emptyMetrics.pacingVariation = "unknown" :=
  ⟨rfl, rfl, rfl, rfl, rfl, rfl, rfl, rfl⟩

/-- Claim C3 is false on the code: a present but unparseable `duration` form
field is not replaced by the collaborator-reported duration; `parseFloat`
is applied to it unconditionally and yields `NaN`. -/
theorem c3_counterexample :
    selectDuration (some "abc") (some 5) = JsNum.nan ∧
    parseFloat "abc" = JsNum.nan ∧
    JsNum.nan ≠ JsNum.num 5 := by
  decide

/-- Claim C3 (amended): the duration passed on is `parseFloat(field)` whenever
the field is present and nonempty — even when unparseable, in which case it is
`NaN` — and only for an absent or empty field does it fall back to the
collaborator-reported duration, and to `0` when that too is absent. -/
theorem c3_amended (field : Option String) (td : Option ℚ) :
    (∀ s, field = some s → s ≠ "" → selectDuration field td = parseFloat s) ∧
    ((field = none ∨ field = some "") → selectDuration field td = JsNum.num (td.getD 0)) := by
  constructor
  · intro s hs hne
    subst hs
    simp [selectDuration, hne]
  · rintro (h | h) <;> subst h <;>
      rcases td with _ | d <;> simp [selectDuration] <;>
      rcases eq_or_ne d 0 with h0 | h0 <;> simp [h0]
/-- Witness for C3 (amended) at concrete inputs. -/
theorem c3_witness :
    selectDuration (some "2.5") (some 7) = parseFloat "2.5" ∧
    selectDuration none (some 7) = JsNum.num ((some (7 : ℚ)).getD 0) :=
  ⟨(c3_amended (some "2.5") (some 7)).1 "2.5" rfl (by decide),
   (c3_amended none (some 7)).2 (Or.inl rfl)⟩

/-- Claim C4 is false on the code: `analyzeMetrics` is not total — a word
whose `.word` is missing makes `word.word.toLowerCase()` throw a `TypeError`
(modelled as `none`). -/
theorem c4_counterexample :
    analyzeMetrics (some [⟨none, some 0, some 1⟩]) (JsNum.num 1) = none := by
  decide

/-- Claim C4 (amended): `analyzeMetrics` is total — returns a metrics value,
never throwing — for every duration (including `NaN`) and every word sequence
whose entries carry string text; missing timestamps only degrade the pause
data.  A word with missing text, however, throws. -/
theorem c4_amended (words : Option (List Word)) (d : JsNum)
    (h : ∀ ws, words = some ws → ∀ w ∈ ws, w.word.isSome) :
    (analyzeMetrics words d).isSome := by
  cases words with
  | none => rfl
  | some ws =>
      by_cases hl : ws.length = 0
      · simp [analyzeMetrics, hl]
      · obtain ⟨c, hc⟩ := fillerCountOf_isSome ws (h ws rfl)
        simp [analyzeMetrics, hl, hc]

/-- Witness for C4 (amended): malformed timestamps and a `NaN` duration still
produce a value. -/
theorem c4_witness :
    (analyzeMetrics (some [⟨some "a", none, none⟩, ⟨some "b", some 1, none⟩]) JsNum.nan).isSome :=
  c4_amended (some [⟨some "a", none, none⟩, ⟨some "b", some 1, none⟩]) JsNum.nan
    (by intro ws hws; cases hws; decide)

theorem foldl_qadd_sum (l : List ℚ) : ∀ a : ℚ, l.foldl qadd a = a + l.sum := by
  induction l with
  | nil => intro a; simp
  | cons x t ih =>
      intro a
      rw [List.foldl_cons, ih (qadd a x), qadd_eq, List.sum_cons]
      ring

theorem foldMax_mem : ∀ l : List ℚ, l ≠ [] → foldMax l ∈ l := by
  intro l
  induction l with
  | nil => intro h; exact absurd rfl h
  | cons x rest ih =>
      intro _
      cases rest with
      | nil => simp [foldMax]
      | cons y t =>
          rw [foldMax]
          rcases le_total x (foldMax (y :: t)) with h | h
          · rw [max_eq_right h]
            exact List.mem_cons_of_mem x (ih (by simp))
          · rw [max_eq_left h]
            exact List.mem_cons_self x (y :: t)

theorem foldMax_ge : ∀ l : List ℚ, ∀ x ∈ l, x ≤ foldMax l := by
  intro l
  induction l with
  | nil => intro x hx; exact absurd hx (List.not_mem_nil x)
  | cons a rest ih =>
      intro x hx
      cases rest with
      | nil =>
          rcases List.mem_cons.mp hx with h | h
          · subst h; exact le_of_eq rfl
          · exact absurd h (List.not_mem_nil x)
      | cons y t =>
          rw [foldMax]
          rcases List.mem_cons.mp hx with h | h
          · subst h; exact le_max_left _ _
          · exact le_trans (ih x h) (le_max_right _ _)

theorem pausesOf_gt (ws : List Word) : ∀ q ∈ pausesOf ws, mkRat 1 5 < q := by
  induction ws with
  | nil => intro q hq; exact absurd hq (List.not_mem_nil q)
  | cons a rest ih =>
      intro q hq
      cases rest with
      | nil => exact absurd hq (List.not_mem_nil q)
      | cons b t =>
          rw [pausesOf] at hq
          rcases List.mem_append.mp hq with h | h
          · rcases hsub : jsSub (toJs b.start) (toJs a.«end») with g | _ | _ | _ <;>
              rw [hsub] at h
            · by_cases hg : mkRat 1 5 < g
              · have h1 : q = g := by simpa [hg] using h
                subst h1; exact hg
              · exact absurd h (by simp [hg])
            · exact absurd h (by simp)
            · exact absurd h (by simp)
            · exact absurd h (by simp)
          · exact ih q h

theorem toFixed2_nonneg (q : ℚ) (h : 0 ≤ q) : 0 ≤ toFixed2 q := by
  rw [toFixed2_eq]
  apply div_nonneg _ (by norm_num)
  have h1 : (0 : ℤ) ≤ round (q * 100) := by
    rw [round_eq]
    apply Int.floor_nonneg.mpr
    have : (0 : ℚ) ≤ q * 100 := by positivity
    linarith
  exact_mod_cast h1

/-- The shape of the non-empty-sequence return object of `analyzeMetrics`. -/
theorem analyzeMetrics_some (ws : List Word) (d : JsNum) (m : Metrics)
    (hm : analyzeMetrics (some ws) d = some m) (hne : ws ≠ []) :
    ∃ c, fillerCountOf ws = some c ∧
      m = { wordsPerMinute := jsRound (jsMul (jsDiv (JsNum.num (ws.length : ℚ)) d) (JsNum.num 60))
            averagePauseDuration :=
              if 0 < (pausesOf ws).length then
                toFixed2 (qdiv ((pausesOf ws).foldl qadd 0) ((pausesOf ws).length : ℚ))
              else 0
            longestPause :=
              if 0 < (pausesOf ws).length then toFixed2 (foldMax (pausesOf ws)) else 0
            fillerWordCount := c
            pauseCount := some (pausesOf ws).length
            pacingVariation :=
              pacingOf (pausesOf ws).length ws.length
                (jsRound (jsMul (jsDiv (JsNum.num (ws.length : ℚ)) d) (JsNum.num 60))) } := by
  have hlen : ws.length ≠ 0 := by simpa using hne
  rcases heq : fillerCountOf ws with _ | c
  · rw [analyzeMetrics, if_neg hlen, heq] at hm
    exact absurd hm (by simp)
  · rw [analyzeMetrics, if_neg hlen, heq] at hm
    exact ⟨c, rfl, (Option.some_injective _ hm).symm⟩

/-- Claim C5: whenever pauses were recorded, `averagePauseDuration` is the
arithmetic mean of the recorded pauses and `longestPause` their maximum, both
rounded to two decimal places and nonnegative; with no recorded pause both are
`0`. -/
theorem c5_pause_aggregates (words : List Word) (d : JsNum) (m : Metrics)
    (hm : analyzeMetrics (some words) d = some m) :
    (pausesOf words ≠ [] →
      m.averagePauseDuration =
          ((round ((pausesOf words).sum / ((pausesOf words).length : ℚ) * 100) : ℤ) : ℚ) / 100 ∧
      (∃ M ∈ pausesOf words, (∀ x ∈ pausesOf words, x ≤ M) ∧
        m.longestPause = ((round (M * 100) : ℤ) : ℚ) / 100) ∧
      0 ≤ m.averagePauseDuration ∧ 0 ≤ m.longestPause) ∧
    (pausesOf words = [] → m.averagePauseDuration = 0 ∧ m.longestPause = 0) := by
  by_cases hne : words = []
  · subst hne
    have : m = emptyMetrics := Option.some_injective _ (by simpa [analyzeMetrics] using hm.symm)
    subst this
    exact ⟨fun hp => absurd rfl hp, fun _ => ⟨rfl, rfl⟩⟩
  · obtain ⟨c, _, hm'⟩ := analyzeMetrics_some words d m hm hne
    have hA : m.averagePauseDuration =
        if 0 < (pausesOf words).length then
          toFixed2 (qdiv ((pausesOf words).foldl qadd 0) ((pausesOf words).length : ℚ))
        else 0 := by rw [hm']
    have hL : m.longestPause =
        if 0 < (pausesOf words).length then toFixed2 (foldMax (pausesOf words)) else 0 := by
      rw [hm']
    have hpos : ∀ x ∈ pausesOf words, (0 : ℚ) < x := by
      intro x hx
      have h15 : (0 : ℚ) < mkRat 1 5 := by rw [mkRat_q]; norm_num
      exact lt_trans h15 (pausesOf_gt words x hx)
    constructor
    · intro hp
      have hlen : 0 < (pausesOf words).length := List.length_pos.mpr hp
      rw [hA, hL, if_pos hlen, if_pos hlen]
      have hsum : qdiv ((pausesOf words).foldl qadd 0) ((pausesOf words).length : ℚ) =
          (pausesOf words).sum / ((pausesOf words).length : ℚ) := by
        rw [qdiv_eq, foldl_qadd_sum, zero_add]
      have hmean0 : (0 : ℚ) ≤ (pausesOf words).sum / ((pausesOf words).length : ℚ) := by
        apply div_nonneg _ (by positivity)
        apply List.sum_nonneg
        intro x hx
        exact le_of_lt (hpos x hx)
      refine ⟨?_, ⟨foldMax (pausesOf words), foldMax_mem _ hp, foldMax_ge _, ?_⟩, ?_, ?_⟩
      · rw [hsum, toFixed2_eq]
      · rw [toFixed2_eq]
      · rw [hsum]
        exact toFixed2_nonneg _ hmean0
      · exact toFixed2_nonneg _ (le_of_lt (hpos _ (foldMax_mem _ hp)))
    · intro hp
      rw [hA, hL]
      simp [hp]

/-- Witness for C5 at the spec's worked example (one recorded pause of 0.7s). -/
theorem c5_witness :
    (pausesOf [⟨some "the", some 0, some (mkRat 1 10)⟩, ⟨some "quick", some (mkRat 1 10), some (mkRat 1 5)⟩,
        ⟨some "brown", some (mkRat 9 10), some 1⟩] ≠ [] →
      (⟨JsNum.num 90, mkRat 7 10, mkRat 7 10, 0, some 1, "halting"⟩ : Metrics).averagePauseDuration =
          ((round ((pausesOf [⟨some "the", some 0, some (mkRat 1 10)⟩,
              ⟨some "quick", some (mkRat 1 10), some (mkRat 1 5)⟩,
              ⟨some "brown", some (mkRat 9 10), some 1⟩]).sum /
            ((pausesOf [⟨some "the", some 0, some (mkRat 1 10)⟩,
              ⟨some "quick", some (mkRat 1 10), some (mkRat 1 5)⟩,
              ⟨some "brown", some (mkRat 9 10), some 1⟩]).length : ℚ) * 100) : ℤ) : ℚ) / 100 ∧
      (∃ M ∈ pausesOf [⟨some "the", some 0, some (mkRat 1 10)⟩,
          ⟨some "quick", some (mkRat 1 10), some (mkRat 1 5)⟩,
          ⟨some "brown", some (mkRat 9 10), some 1⟩],
        (∀ x ∈ pausesOf [⟨some "the", some 0, some (mkRat 1 10)⟩,
            ⟨some "quick", some (mkRat 1 10), some (mkRat 1 5)⟩,
            ⟨some "brown", some (mkRat 9 10), some 1⟩], x ≤ M) ∧
        (⟨JsNum.num 90, mkRat 7 10, mkRat 7 10, 0, some 1, "halting"⟩ : Metrics).longestPause =
          ((round (M * 100) : ℤ) : ℚ) / 100) ∧
      0 ≤ (⟨JsNum.num 90, mkRat 7 10, mkRat 7 10, 0, some 1, "halting"⟩ : Metrics).averagePauseDuration ∧
      0 ≤ (⟨JsNum.num 90, mkRat 7 10, mkRat 7 10, 0, some 1, "halting"⟩ : Metrics).longestPause) ∧
    (pausesOf [⟨some "the", some 0, some (mkRat 1 10)⟩, ⟨some "quick", some (mkRat 1 10), some (mkRat 1 5)⟩,
        ⟨some "brown", some (mkRat 9 10), some 1⟩] = [] →
      (⟨JsNum.num 90, mkRat 7 10, mkRat 7 10, 0, some 1, "halting"⟩ : Metrics).averagePauseDuration = 0 ∧
      (⟨JsNum.num 90, mkRat 7 10, mkRat 7 10, 0, some 1, "halting"⟩ : Metrics).longestPause = 0) :=
  c5_pause_aggregates
    [⟨some "the", some 0, some (mkRat 1 10)⟩, ⟨some "quick", some (mkRat 1 10), some (mkRat 1 5)⟩,
      ⟨some "brown", some (mkRat 9 10), some 1⟩]
    (JsNum.num 2) ⟨JsNum.num 90, mkRat 7 10, mkRat 7 10, 0, some 1, "halting"⟩ (by decide)

/-- Claim C7: with full timing data, pause recognition is exactly the strict
`> 0.2` filter over the adjacent-pair gaps — a gap of exactly `0.2` is not
recorded, any strictly larger gap is — and fewer than two words never record a
pause. -/
theorem c7_pause_threshold (words : List Word)
    (h : ∀ w ∈ words, w.start.isSome ∧ w.«end».isSome) :
    pausesOf words = (adjacentGaps words).filter (fun g => decide ((1 : ℚ)/5 < g)) ∧
    (words.length < 2 → pausesOf words = []) := by
  constructor
  · induction words with
    | nil => rfl
    | cons a rest ih =>
        cases rest with
        | nil => rfl
        | cons b t =>
            obtain ⟨sb, hsb⟩ := Option.isSome_iff_exists.mp
              (h b (List.mem_cons_of_mem a (List.mem_cons_self b t))).1
            obtain ⟨ea, hea⟩ := Option.isSome_iff_exists.mp (h a (List.mem_cons_self a (b :: t))).2
            have hrest := ih (fun w hw => h w (List.mem_cons_of_mem a hw))
            have hred : pausesOf (a :: b :: t) =
                (if mkRat 1 5 < qsub sb ea then [qsub sb ea] else []) ++ pausesOf (b :: t) := by
              rw [pausesOf, hsb, hea]
              rfl
            have hgaps : adjacentGaps (a :: b :: t) = (sb - ea) :: adjacentGaps (b :: t) := by
              rw [adjacentGaps, hsb, hea]
              rfl
            rw [hred, hgaps, hrest]
            have hcond : (mkRat 1 5 < qsub sb ea) ↔ ((1 : ℚ)/5 < sb - ea) := by
              rw [qsub_eq, mkRat_q]
              norm_num
            rw [List.filter_cons]
            by_cases hg : (1 : ℚ)/5 < sb - ea
            · rw [if_pos (hcond.mpr hg), if_pos (by simpa using hg), qsub_eq]
              rfl
            · rw [if_neg (fun hh => hg (hcond.mp hh)), if_neg (by simpa using hg)]
              rfl
  · intro hlt
    match words, hlt with
    | [], _ => rfl
    | [w], _ => rfl

/-- Witness for C7: gaps of exactly 0.2 (excluded) and 0.2001 (included). -/
theorem c7_witness :
    pausesOf [⟨some "a", some 0, some 0⟩, ⟨some "b", some (mkRat 1 5), some (mkRat 1 5)⟩,
        ⟨some "c", some (mkRat 4001 10000), some 1⟩] =
      (adjacentGaps [⟨some "a", some 0, some 0⟩, ⟨some "b", some (mkRat 1 5), some (mkRat 1 5)⟩,
        ⟨some "c", some (mkRat 4001 10000), some 1⟩]).filter (fun g => decide ((1 : ℚ)/5 < g)) :=
  (c7_pause_threshold
    [⟨some "a", some 0, some 0⟩, ⟨some "b", some (mkRat 1 5), some (mkRat 1 5)⟩,
      ⟨some "c", some (mkRat 4001 10000), some 1⟩] (by decide)).1

/-- Claim C8: pacing classification is the deterministic first-match-wins
cascade — `halting` when `pauseCount > 0.3 * wordCount`, else `rushed` when
`pauseCount < 0.1 * wordCount` and `wordsPerMinute > 150`, else `steady` — and
an input satisfying both the halting and the rushed conditions classifies as
`halting`. -/
theorem c8_pacing (words : List Word) (d : JsNum) (m : Metrics) (pc : ℕ)
    (hne : words ≠ []) (hm : analyzeMetrics (some words) d = some m)
    (hpc : m.pauseCount = some pc) :
    (m.pacingVariation =
      if (pc : ℚ) > (3/10) * (words.length : ℚ) then "halting"
      else if (pc : ℚ) < (1/10) * (words.length : ℚ) ∧ m.wordsPerMinute.gtQ 150 = true then "rushed"
      else "steady") ∧
    ((((pc : ℚ) > (3/10) * (words.length : ℚ)) ∧
        ((pc : ℚ) < (1/10) * (words.length : ℚ) ∧ m.wordsPerMinute.gtQ 150 = true)) →
      m.pacingVariation = "halting") := by
  obtain ⟨c, _, hm'⟩ := analyzeMetrics_some words d m hm hne
  have hpc' : pc = (pausesOf words).length := by
    rw [hm'] at hpc
    exact (Option.some_injective _ hpc.symm)
  have hwpm : m.wordsPerMinute =
      jsRound (jsMul (jsDiv (JsNum.num (words.length : ℚ)) d) (JsNum.num 60)) := by rw [hm']
  have hpv : m.pacingVariation =
      pacingOf (pausesOf words).length words.length
        (jsRound (jsMul (jsDiv (JsNum.num (words.length : ℚ)) d) (JsNum.num 60))) := by rw [hm']
  subst hpc'
  have e3 : (qmul ((words.length : ℚ)) (mkRat 3 10) < ((pausesOf words).length : ℚ)) =
      (((pausesOf words).length : ℚ) > (3/10) * (words.length : ℚ)) := by
    rw [qmul_eq, mkRat_q]
    norm_num [mul_comm]
  have e1 : ((((pausesOf words).length : ℚ)) < qmul ((words.length : ℚ)) (mkRat 1 10)) =
      ((((pausesOf words).length : ℚ)) < (1/10) * (words.length : ℚ)) := by
    rw [qmul_eq, mkRat_q]
    norm_num [mul_comm]
  constructor
  · rw [hpv, hwpm, pacingOf]
    simp only [e3, e1]
  · rintro ⟨h3, h1, _⟩
    have : (3 : ℚ)/10 * (words.length : ℚ) < (1/10) * (words.length : ℚ) := lt_trans h3 h1
    have hn : (0 : ℚ) ≤ (words.length : ℚ) := by positivity
    nlinarith

/-- Witness for C8 at a concrete input (3 words, 1 pause: halting). -/
theorem c8_witness :
    ((⟨JsNum.num 90, mkRat 7 10, mkRat 7 10, 0, some 1, "halting"⟩ : Metrics).pacingVariation =
      if ((1 : ℕ) : ℚ) > (3/10) * (([⟨some "the", some 0, some (mkRat 1 10)⟩,
            ⟨some "quick", some (mkRat 1 10), some (mkRat 1 5)⟩,
            ⟨some "brown", some (mkRat 9 10), some 1⟩] : List Word).length : ℚ) then "halting"
      else if ((1 : ℕ) : ℚ) < (1/10) * (([⟨some "the", some 0, some (mkRat 1 10)⟩,
            ⟨some "quick", some (mkRat 1 10), some (mkRat 1 5)⟩,
            ⟨some "brown", some (mkRat 9 10), some 1⟩] : List Word).length : ℚ) ∧
          (⟨JsNum.num 90, mkRat 7 10, mkRat 7 10, 0, some 1, "halting"⟩ : Metrics).wordsPerMinute.gtQ 150 = true then "rushed"
      else "steady") ∧
    ((((1 : ℕ) : ℚ) > (3/10) * (([⟨some "the", some 0, some (mkRat 1 10)⟩,
            ⟨some "quick", some (mkRat 1 10), some (mkRat 1 5)⟩,
            ⟨some "brown", some (mkRat 9 10), some 1⟩] : List Word).length : ℚ) ∧
        (((1 : ℕ) : ℚ) < (1/10) * (([⟨some "the", some 0, some (mkRat 1 10)⟩,
            ⟨some "quick", some (mkRat 1 10), some (mkRat 1 5)⟩,
            ⟨some "brown", some (mkRat 9 10), some 1⟩] : List Word).length : ℚ) ∧
          (⟨JsNum.num 90, mkRat 7 10, mkRat 7 10, 0, some 1, "halting"⟩ : Metrics).wordsPerMinute.gtQ 150 = true)) →
      (⟨JsNum.num 90, mkRat 7 10, mkRat 7 10, 0, some 1, "halting"⟩ : Metrics).pacingVariation = "halting") :=
  c8_pacing
    [⟨some "the", some 0, some (mkRat 1 10)⟩, ⟨some "quick", some (mkRat 1 10), some (mkRat 1 5)⟩,
      ⟨some "brown", some (mkRat 9 10), some 1⟩]
    (JsNum.num 2) ⟨JsNum.num 90, mkRat 7 10, mkRat 7 10, 0, some 1, "halting"⟩ 1
    (by decide) (by decide) rfl

/-- Claim C6: on either branch, whenever the generation collaborator's output
fails to parse as JSON, every successfully dispatched JSON response carries
HTTP status 200 and the fixed fallback document (all four sub-scores 0,
`feedback.error = true`) — the parse failure is never surfaced as an HTTP
error. -/
theorem c6_parse_fallback (parse : String → Option Json) (content : Option String)
    (form : ParsedForm) (tr : TranscriptionResult) (body : Option TextRequestBody)
    (hp : parse (responseContentOf content) = none) :
    (∀ s b, handlerAudioBranch parse form tr content = Except.ok (ApiResponse.json s b) →
      s = 200 ∧ b.ieltsScores = fallbackIelts) ∧
    (∀ s b, handlerTextBranch parse body content = ApiResponse.json s b →
      s = 200 ∧ b.ieltsScores = fallbackIelts) := by
  have hres : ieltsResultOf parse content = fallbackIelts := by
    rw [ieltsResultOf, hp]
  constructor
  · intro s b heq
    rw [handlerAudioBranch] at heq
    split at heq
    · simp at heq
    · split at heq
      · simp at heq
      · simp only [Except.ok.injEq, ApiResponse.json.injEq] at heq
        obtain ⟨hs, hb⟩ := heq
        subst hs
        subst hb
        exact ⟨rfl, hres⟩
  · intro s b heq
    rw [handlerTextBranch] at heq
    split at heq
    · simp at heq
    · split at heq
      · simp at heq
      · simp only [ApiResponse.json.injEq] at heq
        obtain ⟨hs, hb⟩ := heq
        subst hs
        subst hb
        exact ⟨rfl, hres⟩

/-- Witness for C6: a collaborator reply that is not JSON yields the fallback
document with status 200 on the text branch. -/
theorem c6_witness :
    200 = 200 ∧
      ({ ieltsScores := fallbackIelts, transcript := "hi", metrics := none,
         question := "General IELTS Question", part := "1" } : OkBody).ieltsScores = fallbackIelts :=
  (c6_parse_fallback (fun _ => none) (some "not json") ⟨none, none, none, none⟩ ⟨"", none, none⟩
      (some ⟨some "hi", none, none⟩) rfl).2 200
    { ieltsScores := fallbackIelts, transcript := "hi", metrics := none,
      question := "General IELTS Question", part := "1" } rfl

/-- Claim C10: an empty or absent generation-collaborator message is replaced
by the literal `'{}'` before parsing, so a successfully dispatched response on
either branch has status 200 with `ieltsScores` the empty object — not the
fallback error document. -/
theorem c10_empty_content (parse : String → Option Json) (content : Option String)
    (form : ParsedForm) (tr : TranscriptionResult) (body : Option TextRequestBody)
    (hc : content = none ∨ ∃ c, content = some c ∧ jsTrim c = "")
    (hp : parse jsonEmptyText = some (Json.obj [])) :
    (∀ s b, handlerAudioBranch parse form tr content = Except.ok (ApiResponse.json s b) →
      s = 200 ∧ b.ieltsScores = Json.obj []) ∧
    (∀ s b, handlerTextBranch parse body content = ApiResponse.json s b →
      s = 200 ∧ b.ieltsScores = Json.obj []) ∧
    Json.obj [] ≠ fallbackIelts := by
  have hrc : responseContentOf content = jsonEmptyText := by
    rcases hc with h | ⟨c, hcc, htr⟩
    · rw [h, responseContentOf]
    · rw [hcc, responseContentOf, if_pos htr]
  have hres : ieltsResultOf parse content = Json.obj [] := by
    rw [ieltsResultOf, hrc, hp]
  refine ⟨?_, ?_, by simp [fallbackIelts]⟩
  · intro s b heq
    rw [handlerAudioBranch] at heq
    split at heq
    · simp at heq
    · split at heq
      · simp at heq
      · simp only [Except.ok.injEq, ApiResponse.json.injEq] at heq
        obtain ⟨hs, hb⟩ := heq
        subst hs
        subst hb
        exact ⟨rfl, hres⟩
  · intro s b heq
    rw [handlerTextBranch] at heq
    split at heq
    · simp at heq
    · split at heq
      · simp at heq
      · simp only [ApiResponse.json.injEq] at heq
        obtain ⟨hs, hb⟩ := heq
        subst hs
        subst hb
        exact ⟨rfl, hres⟩

/-- Witness for C10: an absent message yields `ieltsScores = {}` with
status 200 on the text branch. -/
theorem c10_witness :
    200 = 200 ∧
      ({ ieltsScores := Json.obj [], transcript := "hi", metrics := none,
         question := "General IELTS Question", part := "1" } : OkBody).ieltsScores = Json.obj [] :=
  ((c10_empty_content (fun s => if s = jsonEmptyText then some (Json.obj []) else none) none
      ⟨none, none, none, none⟩ ⟨"", none, none⟩ (some ⟨some "hi", none, none⟩) (Or.inl rfl)
      (by simp)).2.1) 200
    { ieltsScores := Json.obj [], transcript := "hi", metrics := none,
      question := "General IELTS Question", part := "1" } rfl

/-! ## Occurrence theory for the decoder's string searches -/

theorem takePre_len {pat s : List Char} (h : takePre pat s) : pat.length ≤ s.length := by
  have h1 := congrArg List.length h
  rw [List.length_take] at h1
  exact min_eq_left_iff.mp h1

theorem takePre_append_left {pat x : List Char} (y : List Char) (h : pat.length ≤ x.length) :
    takePre pat (x ++ y) ↔ takePre pat x := by
  unfold takePre
  rw [List.take_append_of_le_length h]

theorem takePre_overlap {pat x y : List Char} (h : takePre pat (x ++ y)) :
    x.take pat.length = pat.take x.length := by
  unfold takePre at h
  have h1 := congrArg (List.take x.length) h
  rw [List.take_take] at h1
  rw [List.take_append_of_le_length (min_le_left _ _)] at h1
  calc x.take pat.length = x.take (pat.length ⊓ x.length) := by
        rw [← List.take_take, List.take_length]
    _ = x.take (x.length ⊓ pat.length) := by rw [min_comm]
    _ = pat.take x.length := h1

theorem takePre_split {pat x y : List Char} (hlen : x.length ≤ pat.length) :
    takePre pat (x ++ y) ↔ x = pat.take x.length ∧ takePre (pat.drop x.length) y := by
  unfold takePre
  rw [List.take_append_eq_append_take, List.take_of_length_le hlen, List.length_drop]
  constructor
  · intro h
    constructor
    · have h1 := congrArg (List.take x.length) h
      rw [List.take_append_of_le_length (le_refl _), List.take_length] at h1
      exact h1
    · have h2 := congrArg (List.drop x.length) h
      rw [List.drop_left] at h2
      exact h2
  · rintro ⟨h1, h2⟩
    conv_rhs => rw [← List.take_append_drop x.length pat]
    rw [← h1, h2]

theorem takePre_head {c : Char} {p s : List Char} (h : takePre (c :: p) s) :
    ∃ s', s = c :: s' := by
  cases s with
  | nil =>
      have := takePre_len h
      simp at this
  | cons d t =>
      have h' := h
      unfold takePre at h'
      rw [List.length_cons, List.take_succ_cons] at h'
      injection h' with h1 _
      exact ⟨t, by rw [h1]⟩

theorem takePre_subset {pat s : List Char} (h : takePre pat s) : pat ⊆ s := by
  unfold takePre at h
  rw [← h]
  exact List.take_subset _ _

theorem jsIndexOf_some {s pat : List Char} :
    ∀ {k}, jsIndexOf s pat = some k → takePre pat (s.drop k) := by
  induction s with
  | nil =>
      intro k h
      rw [jsIndexOf] at h
      by_cases hp : pat = []
      · rw [if_pos hp] at h
        injection h with h1
        subst h1
        subst hp
        rfl
      · rw [if_neg hp] at h
        exact absurd h (by simp)
  | cons c rest ih =>
      intro k h
      rw [jsIndexOf] at h
      by_cases hc : takePre pat (c :: rest)
      · rw [if_pos hc] at h
        injection h with h1
        subst h1
        exact hc
      · rw [if_neg hc] at h
        rcases ho : jsIndexOf rest pat with _ | k'
        · rw [ho] at h
          exact absurd h (by simp)
        · rw [ho] at h
          simp only [Option.map_some'] at h
          injection h with h1
          subst h1
          exact ih ho

theorem jsIndexOf_le {s pat : List Char} :
    ∀ {k}, jsIndexOf s pat = some k → k + pat.length ≤ s.length := by
  induction s with
  | nil =>
      intro k h
      rw [jsIndexOf] at h
      by_cases hp : pat = []
      · rw [if_pos hp] at h
        injection h with h1
        subst hp
        simp [← h1]
      · rw [if_neg hp] at h
        exact absurd h (by simp)
  | cons c rest ih =>
      intro k h
      rw [jsIndexOf] at h
      by_cases hc : takePre pat (c :: rest)
      · rw [if_pos hc] at h
        injection h with h1
        subst h1
        simpa using takePre_len hc
      · rw [if_neg hc] at h
        rcases ho : jsIndexOf rest pat with _ | k'
        · rw [ho] at h
          exact absurd h (by simp)
        · rw [ho] at h
          simp only [Option.map_some'] at h
          injection h with h1
          subst h1
          have := ih ho
          simp only [List.length_cons]
          omega

theorem jsIndexOf_min {s pat : List Char} :
    ∀ {k}, jsIndexOf s pat = some k → ∀ i < k, ¬ takePre pat (s.drop i) := by
  induction s with
  | nil =>
      intro k h i hi
      rw [jsIndexOf] at h
      by_cases hp : pat = []
      · rw [if_pos hp] at h
        injection h with h1
        omega
      · rw [if_neg hp] at h
        exact absurd h (by simp)
  | cons c rest ih =>
      intro k h i hi
      rw [jsIndexOf] at h
      by_cases hc : takePre pat (c :: rest)
      · rw [if_pos hc] at h
        injection h with h1
        omega
      · rw [if_neg hc] at h
        rcases ho : jsIndexOf rest pat with _ | k'
        · rw [ho] at h
          exact absurd h (by simp)
        · rw [ho] at h
          simp only [Option.map_some'] at h
          injection h with h1
          subst h1
          cases i with
          | zero => exact hc
          | succ i' => exact ih ho i' (by omega)

theorem jsIndexOf_intro {s pat : List Char} :
    ∀ {k}, takePre pat (s.drop k) → (∀ i < k, ¬ takePre pat (s.drop i)) →
      jsIndexOf s pat = some k := by
  induction s with
  | nil =>
      intro k h1 h2
      have hp : pat = [] := by
        have := takePre_len h1
        simp at this
        exact this
      have hk : k = 0 := by
        by_contra hk
        exact h2 0 (by omega) (by subst hp; rfl)
      subst hk
      subst hp
      rfl
  | cons c rest ih =>
      intro k h1 h2
      cases k with
      | zero =>
          rw [List.drop_zero] at h1
          rw [jsIndexOf, if_pos h1]
      | succ k' =>
          have hc : ¬ takePre pat (c :: rest) := h2 0 (Nat.succ_pos k')
          rw [jsIndexOf, if_neg hc, ih h1 (fun i hi => h2 (i + 1) (by omega))]
          rfl

theorem jsIndexOf_none {s pat : List Char} (h : jsIndexOf s pat = none) :
    ∀ i, ¬ takePre pat (s.drop i) := by
  induction s with
  | nil =>
      intro i hc
      rw [jsIndexOf] at h
      have hp : pat = [] := by
        have := takePre_len hc
        simp at this
        exact this
      rw [if_pos hp] at h
      exact absurd h (by simp)
  | cons c rest ih =>
      intro i hc
      rw [jsIndexOf] at h
      by_cases hcc : takePre pat (c :: rest)
      · rw [if_pos hcc] at h
        exact absurd h (by simp)
      · rw [if_neg hcc] at h
        have hr : jsIndexOf rest pat = none := by
          rcases ho : jsIndexOf rest pat with _ | k'
          · rfl
          · rw [ho] at h
            exact absurd h (by simp)
        cases i with
        | zero => exact hcc hc
        | succ i' => exact ih hr i' hc

theorem jsIndexOf_none_intro {s pat : List Char} (hp : pat ≠ [])
    (h : ∀ i, ¬ takePre pat (s.drop i)) : jsIndexOf s pat = none := by
  induction s with
  | nil => rw [jsIndexOf, if_neg hp]
  | cons c rest ih =>
      have h0 := h 0
      rw [List.drop_zero] at h0
      rw [jsIndexOf, if_neg h0, ih (fun i => h (i + 1))]
      rfl

theorem jsIndexOf_isSome {s pat : List Char} {i : ℕ} (h : takePre pat (s.drop i)) :
    (jsIndexOf s pat).isSome := by
  rcases ho : jsIndexOf s pat with _ | k
  · exact absurd h (jsIndexOf_none ho i)
  · rfl

theorem jsSplitAux_congr {sep : List Char} (hsep : sep ≠ []) :
    ∀ f1 f2 s, s.length ≤ f1 → s.length ≤ f2 → jsSplitAux sep f1 s = jsSplitAux sep f2 s := by
  intro f1
  induction f1 with
  | zero =>
      intro f2 s h1 h2
      have hs : s = [] := List.eq_nil_of_length_eq_zero (by omega)
      subst hs
      cases f2 with
      | zero => rfl
      | succ f2' =>
          rw [jsSplitAux, jsSplitAux, jsIndexOf_none_intro hsep (fun i hc => by
            rw [List.drop_nil] at hc
            have := takePre_len hc
            simp at this
            exact hsep this)]
  | succ f1' ih =>
      intro f2 s h1 h2
      cases f2 with
      | zero =>
          have hs : s = [] := List.eq_nil_of_length_eq_zero (by omega)
          subst hs
          rw [jsSplitAux, jsSplitAux, jsIndexOf_none_intro hsep (fun i hc => by
            rw [List.drop_nil] at hc
            have := takePre_len hc
            simp at this
            exact hsep this)]
      | succ f2' =>
          rw [jsSplitAux, jsSplitAux]
          rcases ho : jsIndexOf s sep with _ | k
          · rfl
          · have hk := jsIndexOf_le ho
            have hsl : 1 ≤ sep.length := by
              cases sep with
              | nil => exact absurd rfl hsep
              | cons a b => simp
            exact congrArg (fun l => List.take k s :: l)
              (ih f2' (s.drop (k + sep.length)) (by rw [List.length_drop]; omega)
                (by rw [List.length_drop]; omega))

theorem jsSplit_cons {sep p rest : List Char} (hsep : sep ≠ [])
    (hfree : ∀ i < p.length, ¬ takePre sep ((p ++ sep).drop i)) :
    jsSplit (p ++ sep ++ rest) sep = p :: jsSplit rest sep := by
  have hsl : 1 ≤ sep.length := by
    cases sep with
    | nil => exact absurd rfl hsep
    | cons a b => simp
  have hidx : jsIndexOf (p ++ sep ++ rest) sep = some p.length := by
    apply jsIndexOf_intro
    · rw [List.append_assoc, List.drop_left]
      rw [takePre_append_left _ (le_refl _)]
      unfold takePre
      exact List.take_length sep
    · intro i hi hc
      rw [List.drop_append_of_le_length (by rw [List.length_append]; omega)] at hc
      have hlen : sep.length ≤ ((p ++ sep).drop i).length := by
        rw [List.length_drop, List.length_append]
        omega
      rw [takePre_append_left _ hlen] at hc
      exact hfree i hi hc
  have hlen1 : 1 ≤ (p ++ sep ++ rest).length := by
    rw [List.length_append, List.length_append]
    omega
  obtain ⟨f, hf⟩ : ∃ f, (p ++ sep ++ rest).length = f + 1 :=
    ⟨(p ++ sep ++ rest).length - 1, by omega⟩
  have htake : (p ++ sep ++ rest).take p.length = p := by
    rw [List.append_assoc]
    exact List.take_left p (sep ++ rest)
  have hdrop : (p ++ sep ++ rest).drop (p.length + sep.length) = rest := by
    rw [← List.length_append p sep]
    exact List.drop_left (p ++ sep) rest
  rw [jsSplit, if_neg hsep, jsSplit, if_neg hsep, hf, jsSplitAux, hidx]
  simp only [htake, hdrop]
  have hflen : rest.length ≤ f := by
    rw [List.length_append, List.length_append] at hf
    omega
  rw [jsSplitAux_congr hsep f rest.length rest hflen (le_refl _)]

theorem jsSplit_single {s sep : List Char} (hsep : sep ≠ [])
    (h : ∀ i, ¬ takePre sep (s.drop i)) : jsSplit s sep = [s] := by
  rw [jsSplit, if_neg hsep]
  cases hl : s.length with
  | zero => rw [jsSplitAux]
  | succ n => rw [jsSplitAux, jsIndexOf_none_intro hsep h]

theorem clean_concrete {pat x : List Char} (Z : List Char)
    (h : ∀ i < x.length, (x.drop i).take pat.length ≠ pat.take (x.drop i).length) :
    ∀ i < x.length, ¬ takePre pat ((x ++ Z).drop i) := by
  intro i hi hc
  rw [List.drop_append_of_le_length (le_of_lt hi)] at hc
  exact h i hi (takePre_overlap hc)

theorem clean_char {c : Char} {pat x : List Char} (Z : List Char) (hpat : pat.head? = some c)
    (hc : c ∉ x) : ∀ i < x.length, ¬ takePre pat ((x ++ Z).drop i) := by
  intro i hi hcon
  rw [List.drop_append_of_le_length (le_of_lt hi)] at hcon
  rcases pat with _ | ⟨c0, p⟩
  · exact absurd hpat (by simp)
  · have hc0 : c0 = c := by
      simp at hpat
      exact hpat
    rcases hd : x.drop i with _ | ⟨d, t⟩
    · have := congrArg List.length hd
      rw [List.length_drop] at this
      simp at this
      omega
    · rw [hd] at hcon
      obtain ⟨s', hs'⟩ := takePre_head hcon
      have hdc : d = c0 := by
        rw [List.cons_append] at hs'
        injection hs'
      apply hc
      rw [← hc0, ← hdc]
      exact List.mem_of_mem_drop (hd ▸ List.mem_cons_self d t)

theorem clean_chain {pat x z : List Char} {m : ℕ}
    (h1 : ∀ i < x.length, ¬ takePre pat ((x ++ z).drop i))
    (h2 : ∀ i < m, ¬ takePre pat (z.drop i)) :
    ∀ i < x.length + m, ¬ takePre pat ((x ++ z).drop i) := by
  intro i hi hc
  by_cases hx : i < x.length
  · exact h1 i hx hc
  · rw [List.drop_append_eq_append_drop, List.drop_eq_nil_of_le (by omega),
      List.nil_append] at hc
    exact h2 (i - x.length) (by omega) hc

theorem clean_all_chain {pat x z : List Char}
    (h1 : ∀ i < x.length, ¬ takePre pat ((x ++ z).drop i))
    (h2 : ∀ i, ¬ takePre pat (z.drop i)) :
    ∀ i, ¬ takePre pat ((x ++ z).drop i) := by
  intro i hc
  by_cases hx : i < x.length
  · exact h1 i hx hc
  · rw [List.drop_append_eq_append_drop, List.drop_eq_nil_of_le (by omega),
      List.nil_append] at hc
    exact h2 (i - x.length) hc

theorem jsIndexOf_append {x y pat : List Char}
    (hclean : ∀ i < x.length, ¬ takePre pat ((x ++ y).drop i))
    {k : ℕ} (hy : jsIndexOf y pat = some k) :
    jsIndexOf (x ++ y) pat = some (x.length + k) := by
  apply jsIndexOf_intro
  · have : (x ++ y).drop (x.length + k) = y.drop k := by
      rw [List.drop_append_eq_append_drop, List.drop_eq_nil_of_le (by omega), List.nil_append]
      congr 1
      omega
    rw [this]
    exact jsIndexOf_some hy
  · intro i hi hc
    by_cases hx : i < x.length
    · exact hclean i hx hc
    · rw [List.drop_append_eq_append_drop, List.drop_eq_nil_of_le (by omega),
        List.nil_append] at hc
      exact jsIndexOf_min hy (i - x.length) (by omega) hc

theorem findParam_of_index {lit s : List Char} :
    ∀ {k r}, jsIndexOf s lit = some k → matchParamAt lit (s.drop k) = some r →
      findParam lit s = some r := by
  induction s with
  | nil =>
      intro k r hidx hm
      rw [jsIndexOf] at hidx
      by_cases hl : lit = []
      · rw [if_pos hl] at hidx
        injection hidx with h1
        subst h1
        rw [List.drop_nil] at hm
        rw [matchParamAt] at hm
        subst hl
        simp [takePre] at hm
      · rw [if_neg hl] at hidx
        exact absurd hidx (by simp)
  | cons c rest ih =>
      intro k r hidx hm
      rw [jsIndexOf] at hidx
      by_cases hc : takePre lit (c :: rest)
      · rw [if_pos hc] at hidx
        injection hidx with h1
        subst h1
        rw [List.drop_zero] at hm
        rw [findParam, hm]
      · rw [if_neg hc] at hidx
        rcases ho : jsIndexOf rest lit with _ | k'
        · rw [ho] at hidx
          exact absurd hidx (by simp)
        · rw [ho] at hidx
          simp only [Option.map_some'] at hidx
          injection hidx with h1
          subst h1
          rw [List.drop_succ_cons] at hm
          have hcm : matchParamAt lit (c :: rest) = none := by
            rw [matchParamAt, if_neg hc]
          rw [findParam, hcm]
          exact ih ho hm

theorem findParam_none {lit s : List Char} (h : jsIndexOf s lit = none) :
    findParam lit s = none := by
  induction s with
  | nil => rfl
  | cons c rest ih =>
      rw [jsIndexOf] at h
      by_cases hc : takePre lit (c :: rest)
      · rw [if_pos hc] at h
        exact absurd h (by simp)
      · rw [if_neg hc] at h
        have hr : jsIndexOf rest lit = none := by
          rcases ho : jsIndexOf rest lit with _ | k'
          · rfl
          · rw [ho] at h
            exact absurd h (by simp)
        have hcm : matchParamAt lit (c :: rest) = none := by
          rw [matchParamAt, if_neg hc]
        rw [findParam, hcm]
        exact ih hr

theorem takeWhile_all_ne {run : List Char} (hq : ∀ c ∈ run, c ≠ '"') :
    run.takeWhile (fun c => c != '"') = run := by
  induction run with
  | nil => rfl
  | cons a t iht =>
      rw [List.takeWhile_cons, if_pos (by simpa using hq a (List.mem_cons_self a t)),
        iht (fun c hcm => hq c (List.mem_cons_of_mem a hcm))]

theorem matchParamAt_exact {lit run tail : List Char} (hrun : run ≠ [])
    (hq : ∀ c ∈ run, c ≠ '"') :
    matchParamAt lit (lit ++ (run ++ '"' :: tail)) = some run := by
  have hpre : takePre lit (lit ++ (run ++ '"' :: tail)) := by
    rw [takePre_append_left _ (le_refl _)]
    unfold takePre
    exact List.take_length lit
  have h1 : run.takeWhile (fun c => c != '"') = run := takeWhile_all_ne hq
  have htw : (run ++ '"' :: tail).takeWhile (fun c => c != '"') = run := by
    rw [List.takeWhile_append, if_pos (by rw [h1])]
    rw [List.takeWhile_cons]
    simp
  rw [matchParamAt, if_pos hpre, List.drop_left, htw]
  rw [if_pos ⟨hrun, by rw [List.drop_left]; rfl⟩]

theorem jsIndexOf_self_prefix {pat s : List Char} (h : takePre pat s) :
    jsIndexOf s pat = some 0 := by
  apply jsIndexOf_intro
  · rwa [List.drop_zero]
  · intro i hi
    omega

theorem takePre_at_end {pat a : List Char} :
    takePre pat ((a ++ pat).drop ((a ++ pat).length - pat.length)) := by
  have h1 : (a ++ pat).length - pat.length = a.length := by
    rw [List.length_append]
    omega
  rw [h1, List.drop_left]
  unfold takePre
  exact List.take_length pat

theorem lastIdxAux_no {pat : List Char} (hp : pat ≠ []) :
    ∀ (s : List Char) (i : ℕ) (best : Option ℕ), (∀ j, ¬ takePre pat (s.drop j)) →
      lastIdxAux pat s i best = best := by
  intro s
  induction s with
  | nil =>
      intro i best h
      rw [lastIdxAux, if_neg hp]
  | cons c t ih =>
      intro i best h
      have h0 := h 0
      rw [List.drop_zero] at h0
      rw [lastIdxAux, if_neg h0]
      exact ih (i + 1) best (fun j => h (j + 1))

theorem lastIdxAux_last {pat : List Char} (hp : pat ≠ []) :
    ∀ (s : List Char) (k i : ℕ) (best : Option ℕ), takePre pat (s.drop k) →
      (∀ j, k < j → ¬ takePre pat (s.drop j)) → lastIdxAux pat s i best = some (i + k) := by
  intro s
  induction s with
  | nil =>
      intro k i best h1 h2
      have := takePre_len h1
      rw [List.drop_nil] at h1
      simp at this
      exact absurd this hp
  | cons c t ih =>
      intro k i best h1 h2
      cases k with
      | zero =>
          rw [List.drop_zero] at h1
          rw [lastIdxAux, if_pos h1]
          rw [lastIdxAux_no hp t (i + 1) (some i) (fun j => h2 (j + 1) (by omega))]
          rw [Nat.add_zero]
      | succ k' =>
          rw [lastIdxAux]
          rw [ih k' (i + 1) (if takePre pat (c :: t) then some i else best) h1
            (fun j hj => h2 (j + 1) (by omega))]
          congr 1
          omega

theorem jsLastIndexOf_ends {s pat : List Char} (hp : pat ≠ [])
    (hend : takePre pat (s.drop (s.length - pat.length))) (hlen : pat.length ≤ s.length) :
    jsLastIndexOfZ s pat = (s.length : ℤ) - (pat.length : ℤ) := by
  rw [jsLastIndexOfZ, lastIdxAux_last hp s (s.length - pat.length) 0 none hend (by
    intro j hj hc
    have h3 := takePre_len hc
    rw [List.length_drop] at h3
    have h5 : 0 < pat.length := List.length_pos.mpr hp
    have h6 : pat.length ≤ s.length := hlen
    omega)]
  push_cast
  omega

theorem jsSubstring_drop_take {s : List Char} {a b : ℕ} (hab : a ≤ b) (hbs : b ≤ s.length) :
    jsSubstring s (a : ℤ) (b : ℤ) = (s.drop a).take (b - a) := by
  rw [jsSubstring]
  have h1 : min (max (a : ℤ) 0) ((s.length : ℕ) : ℤ) = (a : ℤ) := by
    omega
  have h2 : min (max (b : ℤ) 0) ((s.length : ℕ) : ℤ) = (b : ℤ) := by
    omega
  simp only [h1, h2, Int.toNat_natCast]
  rw [if_pos hab]

theorem fnLit_name_region {n z : List Char} (hq : '"' ∉ n)
    (hn4 : jsIndexOf n ("filename=".data) = none) (hz : ∃ z', z = '"' :: z') :
    ∀ i < n.length, ¬ takePre fnLit ((n ++ z).drop i) := by
  intro i hi hc
  rw [List.drop_append_of_le_length (le_of_lt hi)] at hc
  have hm : (n.drop i).length = n.length - i := List.length_drop i n
  by_cases h10 : fnLit.length ≤ (n.drop i).length
  · rw [takePre_append_left _ h10] at hc
    have hsub := takePre_subset hc
    exact hq (List.mem_of_mem_drop (hsub (by decide : '"' ∈ fnLit)))
  · rw [takePre_split (le_of_not_le h10)] at hc
    obtain ⟨h1, h2⟩ := hc
    by_cases hm9 : (n.drop i).length = 9
    · apply jsIndexOf_none hn4 i
      unfold takePre
      have h9 : ("filename=".data : List Char).length = 9 := by decide
      rw [h9, ← hm9, List.take_of_length_le (le_refl _), h1, hm9]
      decide
    · obtain ⟨z', hz'⟩ := hz
      subst hz'
      rcases hfd : fnLit.drop (n.drop i).length with _ | ⟨cm, rm⟩
      · have := congrArg List.length hfd
        rw [List.length_drop] at this
        simp at this
        have h10' : fnLit.length = 10 := by decide
        omega
      · rw [hfd] at h2
        obtain ⟨s', hs'⟩ := takePre_head h2
        injection hs' with hcm _
        have hlt : (n.drop i).length < 9 := by
          have h10' : fnLit.length = 10 := by decide
          omega
        have hgen : ∀ m < 9, (fnLit.drop m).head? ≠ some '"' := by decide
        have h0 := hgen (n.drop i).length hlt
        rw [hfd] at h0
        simp at h0
        exact h0 hcm.symm

theorem fnLit_all_not_value {v : List Char} (hv : jsIndexOf v fnLit = none) :
    ∀ i, ¬ takePre fnLit ((v ++ crlf).drop i) := by
  intro i hc
  rw [List.drop_append_eq_append_drop] at hc
  by_cases h10 : fnLit.length ≤ (v.drop i).length
  · rw [takePre_append_left _ h10] at hc
    by_cases hi : i ≤ v.length
    · exact jsIndexOf_none hv i hc
    · have := takePre_len hc
      rw [List.length_drop] at this
      have h10' : fnLit.length = 10 := by decide
      omega
  · rw [takePre_split (le_of_not_le h10)] at hc
    obtain ⟨h1, h2⟩ := hc
    have hlen2 := takePre_len h2
    rw [List.length_drop, List.length_drop] at hlen2
    have h10' : fnLit.length = 10 := by decide
    have hcl : crlf.length = 2 := by decide
    have hm10 : (v.drop i).length < 10 := by omega
    have hkey : ∀ m < 10, ∀ j < 3, ¬ takePre (fnLit.drop m) (crlf.drop j) := by decide
    by_cases hj : i - v.length < 3
    · exact hkey (v.drop i).length hm10 (i - v.length) hj h2
    · have : crlf.drop (i - v.length) = [] := List.drop_eq_nil_of_le (by omega)
      rw [this] at h2
      have := takePre_len h2
      rw [List.length_drop] at this
      simp at this
      omega

theorem fieldPart_cd (n v : List Char) : (jsIndexOf (fieldPartBody n v) cdLit).isSome := by
  apply @jsIndexOf_isSome _ _ 2
  rw [fieldPartBody, List.drop_append_of_le_length (by decide), takePre_append_left _ (by decide)]
  decide

theorem fieldPart_name {n : List Char} (v : List Char) (hn1 : n ≠ []) (hn2 : '"' ∉ n) :
    findParam nameLit (fieldPartBody n v) = some n := by
  have hq : ∀ c ∈ n, c ≠ '"' := fun c hc he => hn2 (he ▸ hc)
  have hidx : jsIndexOf (fieldPartBody n v) nameLit =
      some ("\r\nContent-Disposition: form-data; ".data.length + 0) := by
    rw [fieldPartBody]
    apply jsIndexOf_append
    · exact clean_concrete _ (by decide)
    · apply jsIndexOf_self_prefix
      rw [takePre_append_left _ (le_refl _)]
      unfold takePre
      exact List.take_length nameLit
  have hmat : matchParamAt nameLit
      ((fieldPartBody n v).drop ("\r\nContent-Disposition: form-data; ".data.length + 0)) =
      some n := by
    rw [Nat.add_zero, fieldPartBody, List.drop_left]
    have hsh : (nameLit ++ (n ++ ("\"\r\n\r\n".data ++ (v ++ crlf))) : List Char) =
        nameLit ++ (n ++ ('"' :: ("\r\n\r\n".data ++ (v ++ crlf)))) := rfl
    rw [hsh]
    exact matchParamAt_exact hn1 hq
  exact findParam_of_index hidx hmat

theorem fieldPart_fn_none {n v : List Char} (hn2 : '"' ∉ n)
    (hn4 : jsIndexOf n ("filename=".data) = none) (hv : jsIndexOf v fnLit = none) :
    findParam fnLit (fieldPartBody n v) = none := by
  apply findParam_none
  apply jsIndexOf_none_intro (by decide)
  rw [fieldPartBody]
  apply clean_all_chain
  · exact clean_concrete _ (by decide)
  · apply clean_all_chain
    · exact clean_concrete _ (by decide)
    · apply clean_all_chain
      · exact fnLit_name_region hn2 hn4 ⟨_, rfl⟩
      · apply clean_all_chain
        · exact clean_concrete _ (by decide)
        · exact fnLit_all_not_value hv

theorem fieldPart_idx4 {n : List Char} (v : List Char) (hn3 : '\r' ∉ n) :
    jsIndexOf (fieldPartBody n v) (crlf ++ crlf) =
      some ("\r\nContent-Disposition: form-data; ".data.length +
        (nameLit.length + (n.length + 1))) := by
  rw [fieldPartBody]
  apply jsIndexOf_append
  · exact clean_concrete _ (by decide)
  · apply jsIndexOf_append
    · exact clean_concrete _ (by decide)
    · apply jsIndexOf_append
      · exact clean_char _ rfl hn3
      · apply jsIndexOf_intro
        · rw [show (("\"\r\n\r\n".data : List Char) ++ (v ++ crlf)).drop 1 =
              "\r\n\r\n".data ++ (v ++ crlf) from rfl]
          rw [takePre_append_left _ (by decide)]
          decide
        · intro i hi hc
          have hi0 : i = 0 := by omega
          subst hi0
          rw [List.drop_zero] at hc
          obtain ⟨s', hs'⟩ := takePre_head hc
          simp at hs'

theorem fieldPart_last (n v : List Char) :
    jsLastIndexOfZ (fieldPartBody n v) crlf = ((fieldPartBody n v).length : ℤ) - 2 := by
  have hend : takePre crlf
      ((fieldPartBody n v).drop ((fieldPartBody n v).length - crlf.length)) := by
    have hsh : fieldPartBody n v =
        ("\r\nContent-Disposition: form-data; ".data ++
          (nameLit ++ (n ++ ("\"\r\n\r\n".data ++ v)))) ++ crlf := by
      simp [fieldPartBody, List.append_assoc]
    rw [hsh]
    exact takePre_at_end
  have hlen : crlf.length ≤ (fieldPartBody n v).length := by
    simp [fieldPartBody, crlf, List.length_append]
  rw [jsLastIndexOf_ends (by decide) hend hlen]
  norm_num [crlf]

theorem fieldPart_content {n v : List Char} (hn3 : '\r' ∉ n) :
    jsSubstring (fieldPartBody n v) (jsIndexOfZ (fieldPartBody n v) (crlf ++ crlf) + 4)
      (jsLastIndexOfZ (fieldPartBody n v) crlf) = v := by
  rw [jsIndexOfZ, fieldPart_idx4 v hn3, fieldPart_last n v]
  have hlit : ("\r\nContent-Disposition: form-data; ".data : List Char).length = 34 := by decide
  have hnl : (nameLit : List Char).length = 6 := by decide
  have hP : (fieldPartBody n v).length = 47 + n.length + v.length := by
    simp [fieldPartBody, List.length_append, nameLit, crlf]
    omega
  have ha : ((("\r\nContent-Disposition: form-data; ".data.length +
      (nameLit.length + (n.length + 1))) : ℕ) : ℤ) + 4 = (((45 + n.length) : ℕ) : ℤ) := by
    rw [hlit, hnl]
    push_cast
    omega
  have hb : (((fieldPartBody n v).length : ℕ) : ℤ) - 2 =
      (((45 + n.length + v.length) : ℕ) : ℤ) := by
    rw [hP]
    push_cast
    omega
  rw [ha, hb, jsSubstring_drop_take (by omega) (by omega)]
  have hsh2 : fieldPartBody n v =
      ("\r\nContent-Disposition: form-data; ".data ++
        (nameLit ++ (n ++ "\"\r\n\r\n".data))) ++ (v ++ crlf) := by
    simp [fieldPartBody, List.append_assoc]
  have hpre : ("\r\nContent-Disposition: form-data; ".data ++
      (nameLit ++ (n ++ "\"\r\n\r\n".data)) : List Char).length = 45 + n.length := by
    simp [List.length_append, nameLit]
    omega
  rw [hsh2, ← hpre, List.drop_left]
  have hd : (45 + n.length + v.length) - (45 + n.length) = v.length := by omega
  rw [hpre, hd, List.take_append_of_le_length (le_refl _), List.take_length]

theorem processPart_field (acc : MultipartResult) {n v : List Char} (hn1 : n ≠ [])
    (hn2 : '"' ∉ n) (hn3 : '\r' ∉ n) (hn4 : jsIndexOf n ("filename=".data) = none)
    (hv : jsIndexOf v fnLit = none) :
    processPart acc (fieldPartBody n v) = { acc with fields := setKey acc.fields n v } := by
  rw [processPart, if_pos (fieldPart_cd n v)]
  simp only [fieldPart_name v hn1 hn2, fieldPart_fn_none hn2 hn4 hv, fieldPart_content hn3]

theorem filePart_cd (n fn c : List Char) : (jsIndexOf (filePartBody n fn c) cdLit).isSome := by
  apply @jsIndexOf_isSome _ _ 2
  rw [filePartBody, List.drop_append_of_le_length (by decide), takePre_append_left _ (by decide)]
  decide

theorem filePart_name {n : List Char} (fn c : List Char) (hn1 : n ≠ []) (hn2 : '"' ∉ n) :
    findParam nameLit (filePartBody n fn c) = some n := by
  have hq : ∀ x ∈ n, x ≠ '"' := fun x hx he => hn2 (he ▸ hx)
  have hidx : jsIndexOf (filePartBody n fn c) nameLit =
      some ("\r\nContent-Disposition: form-data; ".data.length + 0) := by
    rw [filePartBody]
    apply jsIndexOf_append
    · exact clean_concrete _ (by decide)
    · apply jsIndexOf_self_prefix
      rw [takePre_append_left _ (le_refl _)]
      unfold takePre
      exact List.take_length nameLit
  have hmat : matchParamAt nameLit
      ((filePartBody n fn c).drop ("\r\nContent-Disposition: form-data; ".data.length + 0)) =
      some n := by
    rw [Nat.add_zero, filePartBody, List.drop_left]
    have hsh : (nameLit ++ (n ++ ("\"; ".data ++
          (fnLit ++ (fn ++ ("\"\r\n\r\n".data ++ (c ++ crlf)))))) : List Char) =
        nameLit ++ (n ++ ('"' :: ("; ".data ++
          (fnLit ++ (fn ++ ("\"\r\n\r\n".data ++ (c ++ crlf))))))) := rfl
    rw [hsh]
    exact matchParamAt_exact hn1 hq
  exact findParam_of_index hidx hmat

theorem filePart_fn {n fn : List Char} (c : List Char) (hn2 : '"' ∉ n)
    (hn4 : jsIndexOf n ("filename=".data) = none) (hf1 : fn ≠ []) (hf2 : '"' ∉ fn) :
    findParam fnLit (filePartBody n fn c) = some fn := by
  have hqf : ∀ x ∈ fn, x ≠ '"' := fun x hx he => hf2 (he ▸ hx)
  have hidx : jsIndexOf (filePartBody n fn c) fnLit =
      some ("\r\nContent-Disposition: form-data; ".data.length +
        (nameLit.length + (n.length + ("\"; ".data.length + 0)))) := by
    rw [filePartBody]
    apply jsIndexOf_append
    · exact clean_concrete _ (by decide)
    · apply jsIndexOf_append
      · exact clean_concrete _ (by decide)
      · apply jsIndexOf_append
        · exact fnLit_name_region hn2 hn4 ⟨_, rfl⟩
        · apply jsIndexOf_append
          · exact clean_concrete _ (by decide)
          · apply jsIndexOf_self_prefix
            rw [takePre_append_left _ (le_refl _)]
            unfold takePre
            exact List.take_length fnLit
  have hmat : matchParamAt fnLit
      ((filePartBody n fn c).drop ("\r\nContent-Disposition: form-data; ".data.length +
        (nameLit.length + (n.length + ("\"; ".data.length + 0))))) = some fn := by
    have hsh : filePartBody n fn c =
        ("\r\nContent-Disposition: form-data; ".data ++ (nameLit ++ (n ++ "\"; ".data))) ++
          (fnLit ++ (fn ++ ("\"\r\n\r\n".data ++ (c ++ crlf)))) := by
      simp [filePartBody, List.append_assoc]
    have hk : "\r\nContent-Disposition: form-data; ".data.length +
        (nameLit.length + (n.length + ("\"; ".data.length + 0))) =
        ("\r\nContent-Disposition: form-data; ".data ++
          (nameLit ++ (n ++ "\"; ".data)) : List Char).length := by
      simp [List.length_append, nameLit]
      omega
    rw [hsh, hk, List.drop_left]
    have hsh2 : (fnLit ++ (fn ++ ("\"\r\n\r\n".data ++ (c ++ crlf))) : List Char) =
        fnLit ++ (fn ++ ('"' :: ("\r\n\r\n".data ++ (c ++ crlf)))) := rfl
    rw [hsh2]
    exact matchParamAt_exact hf1 hqf
  exact findParam_of_index hidx hmat

theorem filePart_idx4 {n fn : List Char} (c : List Char) (hn3 : '\r' ∉ n) (hf3 : '\r' ∉ fn) :
    jsIndexOf (filePartBody n fn c) (crlf ++ crlf) =
      some ("\r\nContent-Disposition: form-data; ".data.length +
        (nameLit.length + (n.length + ("\"; ".data.length +
          (fnLit.length + (fn.length + 1)))))) := by
  rw [filePartBody]
  apply jsIndexOf_append
  · exact clean_concrete _ (by decide)
  · apply jsIndexOf_append
    · exact clean_concrete _ (by decide)
    · apply jsIndexOf_append
      · exact clean_char _ rfl hn3
      · apply jsIndexOf_append
        · exact clean_concrete _ (by decide)
        · apply jsIndexOf_append
          · exact clean_concrete _ (by decide)
          · apply jsIndexOf_append
            · exact clean_char _ rfl hf3
            · apply jsIndexOf_intro
              · rw [show (("\"\r\n\r\n".data : List Char) ++ (c ++ crlf)).drop 1 =
                    "\r\n\r\n".data ++ (c ++ crlf) from rfl]
                rw [takePre_append_left _ (by decide)]
                decide
              · intro i hi hc
                have hi0 : i = 0 := by omega
                subst hi0
                rw [List.drop_zero] at hc
                obtain ⟨s', hs'⟩ := takePre_head hc
                simp at hs'

theorem filePart_last (n fn c : List Char) :
    jsLastIndexOfZ (filePartBody n fn c) crlf = ((filePartBody n fn c).length : ℤ) - 2 := by
  have hend : takePre crlf
      ((filePartBody n fn c).drop ((filePartBody n fn c).length - crlf.length)) := by
    have hsh : filePartBody n fn c =
        ("\r\nContent-Disposition: form-data; ".data ++
          (nameLit ++ (n ++ ("\"; ".data ++ (fnLit ++ (fn ++ ("\"\r\n\r\n".data ++ c))))))) ++
          crlf := by
      simp [filePartBody, List.append_assoc]
    rw [hsh]
    exact takePre_at_end
  have hlen : crlf.length ≤ (filePartBody n fn c).length := by
    simp [filePartBody, crlf, List.length_append]
  rw [jsLastIndexOf_ends (by decide) hend hlen]
  norm_num [crlf]

theorem filePart_content {n fn : List Char} (c : List Char) (hn3 : '\r' ∉ n)
    (hf3 : '\r' ∉ fn) :
    jsSubstring (filePartBody n fn c) (jsIndexOfZ (filePartBody n fn c) (crlf ++ crlf) + 4)
      (jsLastIndexOfZ (filePartBody n fn c) crlf) = c := by
  rw [jsIndexOfZ, filePart_idx4 c hn3 hf3, filePart_last n fn c]
  have hlit : ("\r\nContent-Disposition: form-data; ".data : List Char).length = 34 := by decide
  have hnl : (nameLit : List Char).length = 6 := by decide
  have h3 : ("\"; ".data : List Char).length = 3 := by decide
  have hfl : (fnLit : List Char).length = 10 := by decide
  have hP : (filePartBody n fn c).length = 60 + n.length + fn.length + c.length := by
    simp [filePartBody, List.length_append, nameLit, fnLit, crlf]
    omega
  have ha : ((("\r\nContent-Disposition: form-data; ".data.length +
      (nameLit.length + (n.length + ("\"; ".data.length +
        (fnLit.length + (fn.length + 1)))))) : ℕ) : ℤ) + 4 =
      (((54 + n.length + fn.length + 4) : ℕ) : ℤ) := by
    rw [hlit, hnl, h3, hfl]
    push_cast
    omega
  have hb : (((filePartBody n fn c).length : ℕ) : ℤ) - 2 =
      (((54 + n.length + fn.length + 4 + c.length) : ℕ) : ℤ) := by
    rw [hP]
    push_cast
    omega
  rw [ha, hb, jsSubstring_drop_take (by omega) (by rw [hP]; omega)]
  have hsh2 : filePartBody n fn c =
      ("\r\nContent-Disposition: form-data; ".data ++
        (nameLit ++ (n ++ ("\"; ".data ++ (fnLit ++ (fn ++ "\"\r\n\r\n".data)))))) ++
        (c ++ crlf) := by
    simp [filePartBody, List.append_assoc]
  have hpre : ("\r\nContent-Disposition: form-data; ".data ++
      (nameLit ++ (n ++ ("\"; ".data ++ (fnLit ++ (fn ++ "\"\r\n\r\n".data))))) :
        List Char).length = 54 + n.length + fn.length + 4 := by
    simp [List.length_append, nameLit, fnLit]
    omega
  rw [hsh2, ← hpre, List.drop_left]
  have hd : (54 + n.length + fn.length + 4 + c.length) - (54 + n.length + fn.length + 4) =
      c.length := by omega
  rw [hpre, hd, List.take_append_of_le_length (le_refl _), List.take_length]

theorem processPart_file (acc : MultipartResult) {n fn : List Char} (c : List Char)
    (hn1 : n ≠ []) (hn2 : '"' ∉ n) (hn3 : '\r' ∉ n)
    (hn4 : jsIndexOf n ("filename=".data) = none)
    (hf1 : fn ≠ []) (hf2 : '"' ∉ fn) (hf3 : '\r' ∉ fn) :
    processPart acc (filePartBody n fn c) =
      { acc with files := setKey acc.files n ⟨fn, c.map Char.toNat⟩ } := by
  rw [processPart, if_pos (filePart_cd n fn c)]
  simp only [filePart_name fn c hn1 hn2, filePart_fn c hn2 hn4 hf1 hf2,
    filePart_content c hn3 hf3]

theorem takePre_cons {c d : Char} {p s : List Char} :
    takePre (c :: p) (d :: s) ↔ c = d ∧ takePre p s := by
  unfold takePre
  rw [List.length_cons, List.take_succ_cons, List.cons.injEq]
  tauto

theorem trailer_sep_free {boundary : List Char} (hb0 : boundary ≠ []) (hbr : '\r' ∉ boundary) :
    ∀ i, ¬ takePre ("--".data ++ boundary) (("--".data ++ crlf).drop i) := by
  intro i hc
  have hsep : ("--".data ++ boundary : List Char) = '-' :: '-' :: boundary := rfl
  have htr : ("--".data ++ crlf : List Char) = '-' :: '-' :: '\r' :: '\n' :: [] := rfl
  rw [hsep, htr] at hc
  match i, hc with
  | 0, hc =>
      rw [List.drop_zero, takePre_cons, takePre_cons] at hc
      rcases boundary with _ | ⟨b0, bs⟩
      · exact hb0 rfl
      · rw [takePre_cons] at hc
        exact hbr (hc.2.2.1 ▸ List.mem_cons_self b0 bs)
  | 1, hc =>
      rw [show (('-' :: '-' :: '\r' :: '\n' :: [] : List Char)).drop 1 =
        '-' :: '\r' :: '\n' :: [] from rfl, takePre_cons, takePre_cons] at hc
      exact absurd hc.2.1 (by decide)
  | 2, hc =>
      rw [show (('-' :: '-' :: '\r' :: '\n' :: [] : List Char)).drop 2 =
        '\r' :: '\n' :: [] from rfl, takePre_cons] at hc
      exact absurd hc.1 (by decide)
  | 3, hc =>
      rw [show (('-' :: '-' :: '\r' :: '\n' :: [] : List Char)).drop 3 =
        '\n' :: [] from rfl, takePre_cons] at hc
      exact absurd hc.1 (by decide)
  | (m + 4), hc =>
      rw [show (('-' :: '-' :: '\r' :: '\n' :: [] : List Char)).drop (m + 4) =
        [] from by simp, takePre] at hc
      simp at hc

theorem setKey_fresh {α : Type} {m : List (List Char × α)} {k : List Char} (v : α)
    (h : ∀ q ∈ m, q.1 ≠ k) : setKey m k v = m ++ [(k, v)] := by
  rw [setKey, if_neg]
  simp only [List.any_eq_true, not_exists, not_and]
  intro q hq
  simpa using h q hq

theorem processPart_nil (acc : MultipartResult) : processPart acc [] = acc := by
  rw [processPart, if_neg (by decide)]

theorem processPart_trailer (acc : MultipartResult) :
    processPart acc ("--".data ++ crlf) = acc := by
  rw [processPart, if_neg (by decide)]

theorem toNat_ofNat_byte {b : ℕ} (hb : b < 256) : (Char.ofNat b).toNat = b := by
  have h : b.isValidChar := Or.inl (by omega)
  rw [Char.ofNat, dif_pos h]
  simp [Char.toNat, Char.ofNatAux, UInt32.toNat_ofNat]
  rfl

theorem map_toNat_ofNat : ∀ {l : List ℕ}, (∀ b ∈ l, b < 256) →
    (l.map Char.ofNat).map Char.toNat = l := by
  intro l
  induction l with
  | nil => intro _; rfl
  | cons b bs ih =>
      intro h
      simp only [List.map_cons, List.cons.injEq]
      exact ⟨toNat_ofNat_byte (h b (List.mem_cons_self b bs)),
        ih (fun x hx => h x (List.mem_cons_of_mem _ hx))⟩

theorem map_ofNat_toNat (l : List Char) : (l.map Char.toNat).map Char.ofNat = l := by
  rw [List.map_map]
  have : Char.ofNat ∘ Char.toNat = id := funext Char.ofNat_toNat
  rw [this, List.map_id]

theorem encodeParts_split {sep : List Char} (hsep : sep ≠ [])
    (htr : ∀ i, ¬ takePre sep (("--".data ++ crlf).drop i)) :
    ∀ (ps : List (List Char)) (pre : List Char),
      (∀ p ∈ ps, ∀ i < p.length, ¬ takePre sep ((p ++ sep).drop i)) →
      (∀ i < pre.length, ¬ takePre sep ((pre ++ sep).drop i)) →
      jsSplit (pre ++ encodeParts sep ps) sep = pre :: (ps ++ ["--".data ++ crlf]) := by
  intro ps
  induction ps with
  | nil =>
      intro pre _ hpre
      have hsh : pre ++ encodeParts sep [] = pre ++ sep ++ ("--".data ++ crlf) := by
        rw [encodeParts]
        simp [List.append_assoc]
      rw [hsh, jsSplit_cons hsep hpre, jsSplit_single hsep htr]
      rfl
  | cons q qs ih =>
      intro pre hps hpre
      have hsh : pre ++ encodeParts sep (q :: qs) = pre ++ sep ++ (q ++ encodeParts sep qs) := by
        rw [encodeParts]
        simp [List.append_assoc]
      rw [hsh, jsSplit_cons hsep hpre,
        ih q (fun p hp => hps p (List.mem_cons_of_mem _ hp)) (hps q (List.mem_cons_self _ _))]
      rfl

theorem foldl_fields :
    ∀ (fs : List (List Char × List Char)) (accF : List (List Char × List Char))
      (accFiles : List (List Char × FilePart)),
      (∀ p ∈ fs, p.1 ≠ [] ∧ '"' ∉ p.1 ∧ '\r' ∉ p.1 ∧
        jsIndexOf p.1 ("filename=".data) = none ∧ jsIndexOf p.2 fnLit = none) →
      (∀ p ∈ fs, ∀ q ∈ accF, q.1 ≠ p.1) →
      List.Pairwise (fun a b => a.1 ≠ b.1) fs →
      (fs.map (fun p => fieldPartBody p.1 p.2)).foldl processPart ⟨accF, accFiles⟩ =
        ⟨accF ++ fs, accFiles⟩ := by
  intro fs
  induction fs with
  | nil =>
      intro accF accFiles _ _ _
      simp
  | cons f rest ih =>
      intro accF accFiles hconds hfresh hdist
      obtain ⟨hn1, hn2, hn3, hn4, hv⟩ := hconds f (List.mem_cons_self f rest)
      rw [List.map_cons, List.foldl_cons,
        processPart_field ⟨accF, accFiles⟩ hn1 hn2 hn3 hn4 hv]
      have hset : setKey accF f.1 f.2 = accF ++ [(f.1, f.2)] :=
        setKey_fresh f.2 (fun q hq => hfresh f (List.mem_cons_self f rest) q hq)
      have hstep : ({ fields := setKey accF f.1 f.2, files := accFiles } : MultipartResult) =
          ⟨accF ++ [f], accFiles⟩ := by
        rw [hset]
      rw [hstep, ih (accF ++ [f]) accFiles
        (fun p hp => hconds p (List.mem_cons_of_mem _ hp))
        (by
          intro p hp q hq
          rcases List.mem_append.mp hq with hq1 | hq2
          · exact hfresh p (List.mem_cons_of_mem _ hp) q hq1
          · have hqf : q = f := by simpa using hq2
            subst hqf
            exact (List.pairwise_cons.mp hdist).1 p hp)
        (List.pairwise_cons.mp hdist).2]
      rw [List.append_assoc]
      rfl

/-- C9 (amended): multipart decoding round-trips, under the side conditions the
format itself requires: the boundary is nonempty, contains no carriage return,
does not contain `boundary=`, and does not occur inside any encoded part; field
and file names are nonempty and free of `"` and CR; field names and the file
name do not contain `filename=`; field values do not contain `filename="`; the
file's declared filename is nonempty and free of `"` and CR; field names are
pairwise distinct; and the file bytes are bytes (< 256).  Then
`parseMultipartForm` returns exactly the encoded field map and the file content
byte-for-byte.  (Without the `filename="` side condition the claim is false:
see the counterexample.) -/
theorem c9_amended (boundary : List Char) (fields : List (List Char × List Char))
    (fileN fileFn : List Char) (fileBytes : List ℕ)
    (hb0 : boundary ≠ []) (hbr : '\r' ∉ boundary)
    (hbi : jsIndexOf boundary ("boundary=".data) = none)
    (hfields : ∀ p ∈ fields, p.1 ≠ [] ∧ '"' ∉ p.1 ∧ '\r' ∉ p.1 ∧
      jsIndexOf p.1 ("filename=".data) = none ∧ jsIndexOf p.2 fnLit = none)
    (hdist : List.Pairwise (fun a b => a.1 ≠ b.1) fields)
    (hn1 : fileN ≠ []) (hn2 : '"' ∉ fileN) (hn3 : '\r' ∉ fileN)
    (hn4 : jsIndexOf fileN ("filename=".data) = none)
    (hf1 : fileFn ≠ []) (hf2 : '"' ∉ fileFn) (hf3 : '\r' ∉ fileFn)
    (hbytes : ∀ b ∈ fileBytes, b < 256)
    (hsepfree : ∀ p ∈ fields.map (fun p => fieldPartBody p.1 p.2) ++
        [filePartBody fileN fileFn (fileBytes.map Char.ofNat)],
      ∀ i < p.length, ¬ takePre ("--".data ++ boundary)
        ((p ++ ("--".data ++ boundary)).drop i)) :
    parseMultipartForm (some (multipartHeader boundary))
        (encodeMultipart boundary fields fileN fileFn fileBytes) =
      Except.ok ⟨fields, [(fileN, ⟨fileFn, fileBytes⟩)]⟩ := by
  have hsep : ("--".data ++ boundary : List Char) ≠ [] := by simp
  have hct : jsSplit (multipartHeader boundary) "boundary=".data =
      ["multipart/form-data; ".data, boundary] := by
    have hpre : ("multipart/form-data; boundary=".data : List Char) =
        "multipart/form-data; ".data ++ "boundary=".data := by decide
    have hsh : multipartHeader boundary =
        "multipart/form-data; ".data ++ "boundary=".data ++ boundary := by
      rw [multipartHeader, hpre, List.append_assoc]
    rw [hsh, jsSplit_cons (by decide) (by decide),
      jsSplit_single (by decide) (jsIndexOf_none hbi)]
  simp only [parseMultipartForm, hct, List.get?_cons_succ, List.get?_cons_zero]
  rw [if_neg hb0]
  have hbuf : (encodeMultipart boundary fields fileN fileFn fileBytes).map Char.ofNat =
      encodeParts ("--".data ++ boundary)
        (fields.map (fun p => fieldPartBody p.1 p.2) ++
          [filePartBody fileN fileFn (fileBytes.map Char.ofNat)]) := by
    rw [encodeMultipart, map_ofNat_toNat]
  rw [hbuf]
  have hsplit := encodeParts_split hsep (trailer_sep_free hb0 hbr)
    (fields.map (fun p => fieldPartBody p.1 p.2) ++
      [filePartBody fileN fileFn (fileBytes.map Char.ofNat)]) [] hsepfree
    (by intro i hi; exact absurd hi (Nat.not_lt_zero i))
  rw [List.nil_append] at hsplit
  rw [hsplit, List.foldl_cons, processPart_nil, List.foldl_append, List.foldl_append,
    foldl_fields fields [] [] hfields
      (by intro p hp q hq; exact absurd hq (List.not_mem_nil q)) hdist,
    List.foldl_cons, List.foldl_nil, List.foldl_cons, List.foldl_nil,
    processPart_file ⟨[] ++ fields, []⟩ (fileBytes.map Char.ofNat) hn1 hn2 hn3 hn4 hf1 hf2 hf3,
    processPart_trailer, map_toNat_ofNat hbytes,
    setKey_fresh _ (fun q hq => absurd hq (List.not_mem_nil q))]
  rfl

set_option maxRecDepth 8000 in
/-- C9, counterexample: the round-trip does NOT hold for every field map.  A
field whose value contains the text `filename="evil"` is misclassified by the
decoder as a file part (the `filename=` regex scans the whole part including
its content), so the decoded form loses the field entirely: the field map
comes back empty and a spurious file named `q` appears. -/
theorem c9_counterexample :
    parseMultipartForm (some (multipartHeader "X".data))
        (encodeMultipart "X".data [("q".data, "filename=\"evil\"".data)]
          "f".data "a.wav".data [65]) =
      Except.ok ⟨[], [("q".data, ⟨"evil".data, "filename=\"evil\"".data.map Char.toNat⟩),
        ("f".data, ⟨"a.wav".data, [65]⟩)]⟩ ∧
    parseMultipartForm (some (multipartHeader "X".data))
        (encodeMultipart "X".data [("q".data, "filename=\"evil\"".data)]
          "f".data "a.wav".data [65]) ≠
      Except.ok ⟨[("q".data, "filename=\"evil\"".data)],
        [("f".data, ⟨"a.wav".data, [65]⟩)]⟩ := by
  constructor
  · decide
  · decide

set_option maxRecDepth 8000 in
/-- C9, witness: the amended round-trip theorem applied to a concrete form with
one field, a boundary `X`, and file bytes including `255` and `0` — the decoded
result is the original field map and the original bytes. -/
theorem c9_witness :
    parseMultipartForm (some (multipartHeader "X".data))
        (encodeMultipart "X".data [("a".data, "hello".data)] "f".data "a.wav".data
          [72, 255, 0]) =
      Except.ok ⟨[("a".data, "hello".data)], [("f".data, ⟨"a.wav".data, [72, 255, 0]⟩)]⟩ :=
  c9_amended "X".data [("a".data, "hello".data)] "f".data "a.wav".data [72, 255, 0]
    (by decide) (by decide) (by decide) (by decide) (by decide) (by decide) (by decide)
    (by decide) (by decide) (by decide) (by decide) (by decide) (by decide) (by decide)
